import Mathlib

/-!
Verification development for the TPP website code-search tool.

The repository has two variants of the search engine:
* `simple_tpp_search.py` — dependency-free keyword search (`SimpleTTPSearch`);
* `tpp_code_search.py` — embedding-based search (`TPPCodeSearch`).

We shallowly embed the extraction pipeline and both scoring/ranking engines.
Python strings are modelled as `List Char` (ASCII fragment: `str.lower`,
`\s` and `\w` character classes are modelled over ASCII, which covers all
inputs the claims are about).  Python `float` scores are modelled as `ℚ`;
properties that involve `sqrt` (cosine similarity) are stated over `ℝ` in
the theorems themselves.  Stateful methods that mutate `chunk.score` are
modelled as functions returning both the result list and the post-call
chunk store.
-/

set_option maxHeartbeats 2000000
set_option maxRecDepth 4000

namespace TppSearch

/-! ### Character and string helpers (Python `str` fragment) -/

/-- Python `str.lower` on an ASCII character. -/
def lowerChar (c : Char) : Char :=
  if 'A' ≤ c ∧ c ≤ 'Z' then Char.ofNat (c.toNat + 32) else c

/-- Python `str.lower` on a string. -/
def lowerStr (s : List Char) : List Char := s.map lowerChar

/-- Python `str.isspace` / regex `\s` class (ASCII). -/
def isPySpace (c : Char) : Bool :=
  c = ' ' || c = '\t' || c = '\n' || c = '\r' || c = '\x0b' || c = '\x0c'

/-- Regex `\w` class (ASCII). -/
def isWordChar (c : Char) : Bool :=
  (decide ('a' ≤ c) && decide (c ≤ 'z')) || (decide ('A' ≤ c) && decide (c ≤ 'Z')) ||
    (decide ('0' ≤ c) && decide (c ≤ '9')) || c = '_'

/-- Auxiliary accumulator version of Python `str.split()` (split on
whitespace runs, dropping empty fields). -/
def splitWsAux : List Char → List Char → List (List Char)
  | [], acc => if acc.isEmpty then [] else [acc.reverse]
  | c :: rest, acc =>
    if isPySpace c then
      (if acc.isEmpty then [] else [acc.reverse]) ++ splitWsAux rest []
    else
      splitWsAux rest (c :: acc)

/-- Python `query.split()` — whitespace-delimited terms, no empties. -/
def splitWs (s : List Char) : List (List Char) := splitWsAux s []

/-- Python `content.split('\n')`.  Note `splitNl [] = [[]]`, matching
`"".split('\n') == ['']`. -/
def splitNl : List Char → List (List Char)
  | [] => [[]]
  | c :: rest =>
    if c = '\n' then [] :: splitNl rest
    else
      match splitNl rest with
      | [] => [[c]]
      | l :: ls => (c :: l) :: ls

/-- Python `'\n'.join(lines)`. -/
def joinNl : List (List Char) → List Char
  | [] => []
  | [l] => l
  | l :: ls => l ++ '\n' :: joinNl ls

/-- Index of the leftmost occurrence of `needle` in the haystack
(Python `str.find` restricted to start 0, as an `Option`). -/
def findIn (needle : List Char) : List Char → Option Nat
  | [] => if needle.isEmpty then some 0 else none
  | c :: rest =>
    if (c :: rest).take needle.length = needle then some 0
    else (findIn needle rest).map (· + 1)

/-- Python `hay.find(needle, start)` returning an `Option` instead of `-1`. -/
def pyFind (needle hay : List Char) (start : Nat) : Option Nat :=
  (findIn needle (hay.drop start)).map (· + start)

/-- Python substring test `needle in hay`. -/
def hasSub (hay needle : List Char) : Bool := (findIn needle hay).isSome

/-- Python slice `l[a:b]` for `0 ≤ a` (negative indices do not occur in the
modelled code paths after the explicit `max(0, ·)` guards). -/
def pySlice (a b : Nat) (l : List α) : List α := (l.drop a).take (b - a)

/-- Number of newline characters in a string; `content[:p].count('\n')` is
`countNl (content.take p)`. -/
def countNl (s : List Char) : Nat := s.count '\n'

/-- Python `s[:cap] + ("..." if len(s) > cap else "")` — the length cap with
ellipsis marker used by the marker-appending extractors of
`tpp_code_search.py` (HTML sections: 1000, forms: 500, JS: 800, CSS: 400,
Python: 600).  The JSON extractor is *not* among its users: its line 290 is
the bare slice `json.dumps(value, indent=2)[:300]` with no marker. -/
def capWithEllipsis (cap : Nat) (s : List Char) : List Char :=
  if cap < s.length then s.take cap ++ ['.', '.', '.'] else s

/-! ### Chunk data model -/

/-- `SearchResult` dataclass of `simple_tpp_search.py`. -/
structure SearchResult where
  name : List Char
  file_path : List Char
  line_number : Nat
  content : List Char
  file_type : List Char
  score : ℚ
deriving DecidableEq, Repr

/-- `TPPCodeResult` dataclass of `tpp_code_search.py`. -/
structure TPPCodeResult where
  name : List Char
  file_path : List Char
  line_number : Nat
  code : List Char
  score : ℚ
  file_type : List Char
  category : List Char
deriving DecidableEq, Repr

/-- Identity fields of a `SearchResult` (everything except `score`). -/
def sameIdS (a b : SearchResult) : Prop :=
  a.name = b.name ∧ a.file_path = b.file_path ∧ a.line_number = b.line_number ∧
    a.content = b.content ∧ a.file_type = b.file_type

/-- Identity fields of a `TPPCodeResult` (everything except `score`). -/
def sameIdT (a b : TPPCodeResult) : Prop :=
  a.name = b.name ∧ a.file_path = b.file_path ∧ a.line_number = b.line_number ∧
    a.code = b.code ∧ a.file_type = b.file_type ∧ a.category = b.category

/-! ### Stable descending sort

Python `list.sort(key=..., reverse=True)` is a stable sort: elements are
ordered by decreasing key, and elements with equal keys keep their original
relative order.  We model it by the (stable) insertion sort below; any
stable descending sort produces the same list. -/

/-- Insert `x` (which originally precedes every element of the list) into a
sorted-descending list: `x` goes before the first element whose key is
`≤ key x`, hence before all equal-key elements. -/
def insertDescBy (key : α → ℚ) (x : α) : List α → List α
  | [] => [x]
  | y :: ys => if key y ≤ key x then x :: y :: ys else y :: insertDescBy key x ys

/-- Stable sort by decreasing key. -/
def sortDescBy (key : α → ℚ) : List α → List α
  | [] => []
  | x :: xs => insertDescBy key x (sortDescBy key xs)

/-! ### Lexical search (`SimpleTTPSearch.search`) -/

/-- The `file_type` filter: `if file_type and chunk.file_type != file_type:
continue`.  `none` models Python `None` (no filtering). -/
def ftMatchS (ft : Option (List Char)) (c : SearchResult) : Bool :=
  match ft with
  | none => true
  | some t => c.file_type = t

/-- `text = f"{chunk.name} {chunk.content}".lower()`. -/
def chunkHaystack (c : SearchResult) : List Char :=
  lowerStr (c.name ++ ' ' :: c.content)

/-- Per-term contribution: `1.0` if the term occurs in the haystack, plus a
`2.0` bonus if it also occurs in the lowercased name. -/
def wordScoreS (c : SearchResult) (w : List Char) : ℚ :=
  if hasSub (chunkHaystack c) w then
    1 + (if hasSub (lowerStr c.name) w then 2 else 0)
  else 0

/-- The raw (un-normalized) keyword score accumulated by the
`for word in query_words` loop. -/
def lexRaw (ws : List (List Char)) (c : SearchResult) : ℚ :=
  (ws.map (wordScoreS c)).sum

/-- `query_words = query.lower().split()`. -/
def queryWordsS (q : List Char) : List (List Char) := splitWs (lowerStr q)

/-- The `results` list built by the chunk loop: file-type filter, then keep
(and rescore) exactly the chunks with positive raw score.  The stored
score is `score / len(query_words)`. -/
def lexCandidates (q : List Char) (ft : Option (List Char))
    (chunks : List SearchResult) : List SearchResult :=
  chunks.filterMap fun c =>
    if ftMatchS ft c then
      if 0 < lexRaw (queryWordsS q) c then
        some { c with score := lexRaw (queryWordsS q) c / (queryWordsS q).length }
      else none
    else none

/-- The chunk store after `search` ran: the loop mutates `chunk.score` in
place for exactly the chunks that pass the filter and match; all other
fields and the store's order are untouched. -/
def simpleStoreAfter (q : List Char) (ft : Option (List Char))
    (chunks : List SearchResult) : List SearchResult :=
  chunks.map fun c =>
    if ftMatchS ft c then
      if 0 < lexRaw (queryWordsS q) c then
        { c with score := lexRaw (queryWordsS q) c / (queryWordsS q).length }
      else c
    else c

/-- `SimpleTTPSearch.search(query, file_type, top_k)`: returns the result
list and the post-call chunk store (`self.code_chunks` after the in-place
`chunk.score` mutations). -/
def simpleSearchRun (q : List Char) (ft : Option (List Char)) (top_k : Nat)
    (chunks : List SearchResult) : List SearchResult × List SearchResult :=
  if chunks.isEmpty then ([], chunks)
  else
    ((sortDescBy (·.score) (lexCandidates q ft chunks)).take top_k,
      simpleStoreAfter q ft chunks)

/-! ### Embedding search (`TPPCodeSearch.search`)

The external encoder (`SentenceTransformer.encode`) is an opaque
collaborator; the executor consumes the per-chunk cosine similarities it
induces.  We model the similarity values as `ℚ` (exact versions of the
`numpy` floats) and the cosine-similarity formula itself separately below
(`dotq`, `sumSq`), since that is where `sqrt` appears. -/

/-- `file_type` filter of the richer variant. -/
def ftMatchT (ft : Option (List Char)) (c : TPPCodeResult) : Bool :=
  match ft with
  | none => true
  | some t => c.file_type = t

/-- The `scores` list built by `search`: for each embedding index `i` the
code computes `similarity`, skips the chunk when the file-type filter
rejects it, otherwise sets `chunk.score = similarity` in place and appends
`(similarity, chunk)`.  Every non-filtered chunk is scored and kept —
there is no similarity-based exclusion. -/
def tppScored (chunks : List TPPCodeResult) (sims : List ℚ)
    (ft : Option (List Char)) : List (ℚ × TPPCodeResult) :=
  (sims.zip chunks).filterMap fun p =>
    if ftMatchT ft p.2 then some (p.1, { p.2 with score := p.1 }) else none

/-- The chunk store after `search` ran: chunks passing the filter have had
`chunk.score = similarity` written; filtered chunks (and chunks beyond the
embedding list) are untouched. -/
def tppStoreAfter (chunks : List TPPCodeResult) (sims : List ℚ)
    (ft : Option (List Char)) : List TPPCodeResult :=
  ((sims.zip chunks).map fun p =>
    if ftMatchT ft p.2 then { p.2 with score := p.1 } else p.2) ++
    chunks.drop sims.length

/-- Python's `<` on the tuples `(similarity, chunk)` that
`scores.sort(reverse=True)` compares.  When the similarities are equal the
tuple comparison falls through to the chunks: equal chunks (dataclass
`__eq__` compares all fields) make the tuples equal, but *different*
chunks are compared with `<`, which `TPPCodeResult` does not support —
a `TypeError`, modelled as `Except.error ()`. -/
def pyTupleLt (a b : ℚ × TPPCodeResult) : Except Unit Bool :=
  if a.1 = b.1 then
    (if a.2 = b.2 then .ok false else .error ())
  else .ok (decide (a.1 < b.1))

/-- Stable descending insertion using the fallible Python comparison:
`x` (originally earlier) goes after `y` exactly when `x < y`. -/
def exceptInsertDesc (x : ℚ × TPPCodeResult) :
    List (ℚ × TPPCodeResult) → Except Unit (List (ℚ × TPPCodeResult))
  | [] => .ok [x]
  | y :: ys => do
    let b ← pyTupleLt x y
    if b then
      let t ← exceptInsertDesc x ys
      pure (y :: t)
    else pure (x :: y :: ys)

/-- `scores.sort(reverse=True)` — a stable descending sort that raises
(`TypeError`) if it ever compares two tuples with equal similarity but
different chunks.  (CPython's timsort compares any two elements of a
two-element list directly, and for lists whose similarities are pairwise
distinct no comparison can fail under any algorithm, so the cases the
theorems use are algorithm-independent.) -/
def exceptSortDesc : List (ℚ × TPPCodeResult) → Except Unit (List (ℚ × TPPCodeResult))
  | [] => .ok []
  | x :: xs => do
    let s ← exceptSortDesc xs
    exceptInsertDesc x s

/-- `TPPCodeSearch.search(query, top_k, file_type)`: score every candidate,
sort the `(similarity, chunk)` tuples descending, return the first `top_k`
chunks.  The first component is the returned list (or the propagated
`TypeError`); the second is the post-call chunk store (the in-place
`chunk.score` mutations happen before the sort, so they survive even when
the sort raises). -/
def tppSearchRun (chunks : List TPPCodeResult) (sims : List ℚ)
    (ft : Option (List Char)) (top_k : Nat) :
    Except Unit (List TPPCodeResult) × List TPPCodeResult :=
  if chunks.isEmpty then (.ok [], chunks)
  else
    ((do
        let sorted ← exceptSortDesc (tppScored chunks sims ft)
        pure ((sorted.take top_k).map (·.2))),
      tppStoreAfter chunks sims ft)

/-! ### Cosine similarity (`np.dot(q, c) / (np.linalg.norm(q) * np.linalg.norm(c))`) -/

/-- `np.dot` on equal-length vectors, over exact rationals. -/
def dotq (u v : List ℚ) : ℚ := (List.zipWith (· * ·) u v).sum

/-- Sum of squares: `np.linalg.norm(u)` is `Real.sqrt (sumSq u)`. -/
def sumSq (u : List ℚ) : ℚ := dotq u u

/-- Whether the code's similarity expression has a nonzero denominator.
The code divides without any guard, so when this is `false` the `numpy`
division is `0.0/0.0 = NaN`: the chunk receives an undefined score rather
than `0`, and is not excluded from the scored list. -/
def simDefined (u v : List ℚ) : Bool := decide (¬ sumSq u * sumSq v = 0)

/-! ### Lemmas about the stable descending sort -/

theorem mem_insertDescBy (key : α → ℚ) (x a : α) :
    ∀ l : List α, a ∈ insertDescBy key x l ↔ a = x ∨ a ∈ l := by
  intro l
  induction l with
  | nil => simp [insertDescBy]
  | cons y ys ih =>
    by_cases h : key y ≤ key x
    · simp [insertDescBy, h]
    · simp only [insertDescBy, if_neg h, List.mem_cons, ih]
      tauto

theorem mem_sortDescBy (key : α → ℚ) (a : α) :
    ∀ l : List α, a ∈ sortDescBy key l ↔ a ∈ l := by
  intro l
  induction l with
  | nil => simp [sortDescBy]
  | cons x xs ih => simp [sortDescBy, mem_insertDescBy, ih]

theorem pairwise_insertDescBy (key : α → ℚ) (x : α) (l : List α)
    (h : l.Pairwise (fun a b => key b ≤ key a)) :
    (insertDescBy key x l).Pairwise (fun a b => key b ≤ key a) := by
  induction l with
  | nil => simp [insertDescBy]
  | cons y ys ih =>
    rcases List.pairwise_cons.mp h with ⟨hy, hys⟩
    by_cases hxy : key y ≤ key x
    · rw [insertDescBy, if_pos hxy]
      refine List.pairwise_cons.mpr ⟨?_, h⟩
      intro b hb
      rcases List.mem_cons.mp hb with rfl | hb
      · exact hxy
      · exact le_trans (hy b hb) hxy
    · rw [insertDescBy, if_neg hxy]
      refine List.pairwise_cons.mpr ⟨?_, ih hys⟩
      intro b hb
      rcases (mem_insertDescBy key x b ys).mp hb with rfl | hb
      · exact le_of_not_le hxy
      · exact hy b hb

theorem sortDescBy_pairwise (key : α → ℚ) :
    ∀ l : List α, (sortDescBy key l).Pairwise (fun a b => key b ≤ key a) := by
  intro l
  induction l with
  | nil => simp [sortDescBy]
  | cons x xs ih => exact pairwise_insertDescBy key x _ ih

theorem filter_insertDescBy (key : α → ℚ) (x : α) (s : ℚ) :
    ∀ l : List α,
      (insertDescBy key x l).filter (fun a => decide (key a = s)) =
        (if key x = s then [x] else []) ++ l.filter (fun a => decide (key a = s)) := by
  intro l
  induction l with
  | nil =>
    by_cases h : key x = s <;> simp [insertDescBy, List.filter, h]
  | cons y ys ih =>
    by_cases hxy : key y ≤ key x
    · rw [insertDescBy, if_pos hxy]
      by_cases hx : key x = s <;> by_cases hy : key y = s <;>
        simp [List.filter_cons, hx, hy]
    · have hyx : key x < key y := lt_of_not_le hxy
      rw [insertDescBy, if_neg hxy]
      by_cases hy : key y = s
      · have hx : ¬ key x = s := by
          intro hx; exact absurd (hx.trans hy.symm) (ne_of_lt hyx)
        simp [List.filter_cons, hy, ih, hx]
      · simp [List.filter_cons, hy, ih]

/-- Stability of the sort: the subsequence of elements with any fixed key
is exactly the corresponding subsequence of the input — equal-key elements
keep their original relative order. -/
theorem sortDescBy_filter_key (key : α → ℚ) (s : ℚ) :
    ∀ l : List α,
      (sortDescBy key l).filter (fun a => decide (key a = s)) =
        l.filter (fun a => decide (key a = s)) := by
  intro l
  induction l with
  | nil => simp [sortDescBy]
  | cons x xs ih =>
    by_cases hx : key x = s <;>
      simp [sortDescBy, filter_insertDescBy, hx, ih, List.filter]

/-! ### The fallible Python tuple sort versus the stable sort -/

theorem exceptInsertDesc_eq (x : ℚ × TPPCodeResult) :
    ∀ l : List (ℚ × TPPCodeResult), (∀ y ∈ l, x.1 ≠ y.1) →
      exceptInsertDesc x l = .ok (insertDescBy (·.1) x l) := by
  intro l
  induction l with
  | nil => intro _; rfl
  | cons y ys ih =>
    intro h
    have hxy : x.1 ≠ y.1 := h y (by simp)
    by_cases hlt : x.1 < y.1
    · have hle : ¬ y.1 ≤ x.1 := not_le.mpr hlt
      simp only [exceptInsertDesc, pyTupleLt, if_neg hxy, decide_eq_true hlt,
        insertDescBy, if_neg hle, ih (fun z hz => h z (by simp [hz]))]
      rfl
    · have hle : y.1 ≤ x.1 := le_of_not_lt hlt
      simp only [exceptInsertDesc, pyTupleLt, if_neg hxy, decide_eq_false hlt,
        insertDescBy, if_pos hle]
      rfl

theorem exceptSortDesc_eq :
    ∀ l : List (ℚ × TPPCodeResult), l.Pairwise (fun a b => a.1 ≠ b.1) →
      exceptSortDesc l = .ok (sortDescBy (·.1) l) := by
  intro l
  induction l with
  | nil => intro _; rfl
  | cons x xs ih =>
    intro h
    rcases List.pairwise_cons.mp h with ⟨hx, hxs⟩
    have hmem : ∀ y ∈ sortDescBy (fun p => p.1) xs, x.1 ≠ y.1 := by
      intro y hy
      exact hx y ((mem_sortDescBy _ y xs).mp hy)
    simp only [exceptSortDesc, ih hxs, sortDescBy]
    show exceptInsertDesc x (sortDescBy (·.1) xs) = _
    exact exceptInsertDesc_eq x _ hmem

/-! ### Lexical scorer facts -/

theorem wordScoreS_nonneg (c : SearchResult) (w : List Char) : 0 ≤ wordScoreS c w := by
  unfold wordScoreS
  split
  · split <;> norm_num
  · exact le_refl 0

theorem lexRaw_nonneg (ws : List (List Char)) (c : SearchResult) : 0 ≤ lexRaw ws c := by
  unfold lexRaw
  induction ws with
  | nil => simp
  | cons w ws ih =>
    simp only [List.map_cons, List.sum_cons]
    exact add_nonneg (wordScoreS_nonneg c w) ih

theorem wordScoreS_eq_zero_iff (c : SearchResult) (w : List Char) :
    wordScoreS c w = 0 ↔ hasSub (chunkHaystack c) w = false := by
  by_cases h : hasSub (chunkHaystack c) w
  · rw [wordScoreS, if_pos h]
    constructor
    · intro hz
      exfalso
      by_cases hb : hasSub (lowerStr c.name) w
      · rw [if_pos hb] at hz; norm_num at hz
      · rw [if_neg hb] at hz; norm_num at hz
    · intro hf
      exact absurd (h.symm.trans hf) (by decide)
  · rw [wordScoreS, if_neg h]
    simp only [eq_self_iff_true, true_iff]
    exact Bool.eq_false_iff.mpr (by simpa using h)

theorem lexRaw_eq_zero_iff (ws : List (List Char)) (c : SearchResult) :
    lexRaw ws c = 0 ↔ ∀ w ∈ ws, hasSub (chunkHaystack c) w = false := by
  unfold lexRaw
  induction ws with
  | nil => simp
  | cons w ws ih =>
    simp only [List.map_cons, List.sum_cons, List.mem_cons]
    rw [add_eq_zero_iff_of_nonneg (wordScoreS_nonneg c w)
      (by simpa [lexRaw] using lexRaw_nonneg ws c)]
    rw [wordScoreS_eq_zero_iff]
    unfold lexRaw at ih
    rw [ih]
    constructor
    · rintro ⟨h1, h2⟩ x hx
      rcases hx with rfl | hx
      · exact h1
      · exact h2 x hx
    · intro h
      exact ⟨h w (Or.inl rfl), fun x hx => h x (Or.inr hx)⟩

theorem mem_lexCandidates (q : List Char) (ft : Option (List Char))
    (chunks : List SearchResult) (c' : SearchResult)
    (h : c' ∈ lexCandidates q ft chunks) :
    c'.score = lexRaw (queryWordsS q) c' / (queryWordsS q).length ∧
      0 < lexRaw (queryWordsS q) c' := by
  rcases List.mem_filterMap.mp h with ⟨c, _, hc⟩
  by_cases h1 : ftMatchS ft c
  · by_cases h2 : 0 < lexRaw (queryWordsS q) c
    · simp only [if_pos h1, if_pos h2, Option.some_inj] at hc
      subst hc
      constructor
      · rfl
      · exact h2
    · simp [h1, h2] at hc
  · simp [h1] at hc

/-- C2: for every query with at least one whitespace-delimited term and
every chunk, the lexical score is the raw score (1.0 per term occurring in
the lowercased `name + " " + content` haystack, plus 2.0 when the term also
occurs in the lowercased name) divided by the number of query terms; it is
non-negative, zero exactly when no term occurs in the haystack, and chunks
with zero score are excluded from the result list.  (`ℚ` models the exact
value of the float expression.) -/
theorem C2_lexical_scorer (q : List Char) (c : SearchResult)
    (h : queryWordsS q ≠ []) :
    (∀ ft chunks c', c' ∈ lexCandidates q ft chunks →
        c'.score = lexRaw (queryWordsS q) c' / (queryWordsS q).length ∧
          0 < c'.score) ∧
    0 ≤ lexRaw (queryWordsS q) c / (queryWordsS q).length ∧
    (lexRaw (queryWordsS q) c / (queryWordsS q).length = 0 ↔
      ∀ w ∈ queryWordsS q, hasSub (chunkHaystack c) w = false) ∧
    (∀ ft k chunks c', c' ∈ (simpleSearchRun q ft k chunks).1 → 0 < c'.score) := by
  have hlen : (0 : ℚ) < (queryWordsS q).length := by
    have : (queryWordsS q).length ≠ 0 := by
      intro h0; exact h (List.length_eq_zero.mp h0)
    exact_mod_cast Nat.pos_of_ne_zero this
  have hmem : ∀ ft chunks c', c' ∈ lexCandidates q ft chunks →
      c'.score = lexRaw (queryWordsS q) c' / (queryWordsS q).length ∧ 0 < c'.score := by
    intro ft chunks c' hc'
    rcases mem_lexCandidates q ft chunks c' hc' with ⟨heq, hpos⟩
    exact ⟨heq, heq ▸ div_pos hpos hlen⟩
  refine ⟨hmem, ?_, ?_, ?_⟩
  · exact div_nonneg (lexRaw_nonneg _ c) hlen.le
  · rw [div_eq_zero_iff]
    constructor
    · intro hz
      rcases hz with hz | hz
      · exact (lexRaw_eq_zero_iff _ c).mp hz
      · exact absurd hz (ne_of_gt hlen)
    · intro hall
      exact Or.inl ((lexRaw_eq_zero_iff _ c).mpr hall)
  · intro ft k chunks c' hc'
    unfold simpleSearchRun at hc'
    by_cases hemp : chunks.isEmpty
    · simp [hemp] at hc'
    · simp only [hemp, if_neg (by simp [hemp] : ¬ chunks.isEmpty = true)] at hc'
      have h1 : c' ∈ sortDescBy (·.score) (lexCandidates q ft chunks) :=
        List.mem_of_mem_take hc'
      have h2 : c' ∈ lexCandidates q ft chunks :=
        (mem_sortDescBy _ c' _).mp h1
      exact (hmem ft chunks c' h2).2

/-- Witness for `C2_lexical_scorer` at the query `"nav"` and a chunk whose
name contains the term. -/
theorem C2_lexical_scorer_witness :
    queryWordsS ['n', 'a', 'v'] ≠ [] ∧
      (lexRaw (queryWordsS ['n', 'a', 'v'])
          ⟨['n', 'a', 'v'], [], 1, ['x'], ['h','t','m','l'], 0⟩ /
        (queryWordsS ['n', 'a', 'v']).length = 0 ↔
        ∀ w ∈ queryWordsS ['n', 'a', 'v'],
          hasSub (chunkHaystack ⟨['n', 'a', 'v'], [], 1, ['x'], ['h','t','m','l'], 0⟩) w = false) :=
  ⟨by decide,
    (C2_lexical_scorer ['n', 'a', 'v']
      ⟨['n', 'a', 'v'], [], 1, ['x'], ['h','t','m','l'], 0⟩ (by decide)).2.2.1⟩

/-! ### Degenerate inputs: empty store, empty or all-whitespace query -/

theorem lowerChar_of_space (c : Char) (h : isPySpace c = true) : lowerChar c = c := by
  simp only [isPySpace, Bool.or_eq_true, decide_eq_true_eq] at h
  rcases h with ((((h | h) | h) | h) | h) | h <;> subst h <;> decide

theorem splitWsAux_all_space :
    ∀ s : List Char, (∀ c ∈ s, isPySpace c = true) → splitWsAux s [] = [] := by
  intro s
  induction s with
  | nil => intro _; rfl
  | cons c rest ih =>
    intro h
    have hc : isPySpace c = true := h c (by simp)
    simp only [splitWsAux, hc, if_pos rfl]
    simpa using ih (fun d hd => h d (by simp [hd]))

theorem queryWordsS_all_space (q : List Char) (h : ∀ c ∈ q, isPySpace c = true) :
    queryWordsS q = [] := by
  unfold queryWordsS splitWs
  apply splitWsAux_all_space
  intro c hc
  rcases List.mem_map.mp hc with ⟨d, hd, rfl⟩
  rw [lowerChar_of_space d (h d hd)]
  exact h d hd

theorem lexCandidates_of_no_words (q : List Char) (hq : queryWordsS q = [])
    (ft : Option (List Char)) (chunks : List SearchResult) :
    lexCandidates q ft chunks = [] := by
  apply List.filterMap_eq_nil_iff.mpr
  intro c _
  have : lexRaw (queryWordsS q) c = 0 := by rw [hq]; rfl
  by_cases h1 : ftMatchS ft c
  · rw [if_pos h1, if_neg (by rw [this]; norm_num)]
  · rw [if_neg h1]

/-- C8: searching an empty chunk store returns the empty list in both
variants (the embedding variant returns `ok []` — no exception); and in the
lexical variant an empty or all-whitespace query yields zero query terms,
hence zero matching chunks and an empty result list — in particular no
chunk reaches the `score / len(query_words)` normalization, so that
division is never executed with zero terms. -/
theorem C8_empty_inputs :
    (∀ q ft k, (simpleSearchRun q ft k []).1 = []) ∧
    (∀ sims ft k, (tppSearchRun [] sims ft k).1 = .ok []) ∧
    (∀ q, (∀ c ∈ q, isPySpace c = true) →
      ∀ ft k chunks, (simpleSearchRun q ft k chunks).1 = []) := by
  refine ⟨fun q ft k => rfl, fun sims ft k => rfl, ?_⟩
  intro q hq ft k chunks
  unfold simpleSearchRun
  by_cases hemp : chunks.isEmpty
  · rw [if_pos hemp]
  · rw [if_neg hemp]
    rw [lexCandidates_of_no_words q (queryWordsS_all_space q hq) ft chunks]
    simp [sortDescBy]

/-- Witness for `C8_empty_inputs`: the all-whitespace query `" "` on a
one-chunk store returns no results. -/
theorem C8_empty_inputs_witness :
    (simpleSearchRun [' '] none 10
      [⟨['a'], [], 1, ['b'], ['h','t','m','l'], 5⟩]).1 = [] :=
  C8_empty_inputs.2.2 [' '] (by decide) none 10
    [⟨['a'], [], 1, ['b'], ['h','t','m','l'], 5⟩]

/-! ### Frame condition of `search` -/

theorem forall₂_map_self {r : α → α → Prop} (f : α → α) (l : List α)
    (h : ∀ a, r (f a) a) : List.Forall₂ r (l.map f) l := by
  induction l with
  | nil => exact List.Forall₂.nil
  | cons x xs ih => exact List.Forall₂.cons (h x) ih

theorem sameIdS_refl (a : SearchResult) : sameIdS a a :=
  ⟨rfl, rfl, rfl, rfl, rfl⟩

theorem sameIdT_refl (a : TPPCodeResult) : sameIdT a a :=
  ⟨rfl, rfl, rfl, rfl, rfl, rfl⟩

theorem tppStoreAfter_forall₂ :
    ∀ (sims : List ℚ) (chunks : List TPPCodeResult) (ft : Option (List Char)),
      List.Forall₂ sameIdT (tppStoreAfter chunks sims ft) chunks := by
  intro sims
  induction sims with
  | nil =>
    intro chunks ft
    unfold tppStoreAfter
    simp only [List.zip_nil_left, List.map_nil, List.length_nil, List.drop_zero,
      List.nil_append]
    exact (List.forall₂_same).mpr (fun a _ => sameIdT_refl a)
  | cons s ss ih =>
    intro chunks ft
    cases chunks with
    | nil =>
      unfold tppStoreAfter
      simp
    | cons c cs =>
      have : tppStoreAfter (c :: cs) (s :: ss) ft =
          (if ftMatchT ft c then { c with score := s } else c) ::
            tppStoreAfter cs ss ft := by
        unfold tppStoreAfter
        simp [List.zip_cons_cons]
      rw [this]
      refine List.Forall₂.cons ?_ (ih cs ft)
      by_cases h : ftMatchT ft c
      · rw [if_pos h]; exact ⟨rfl, rfl, rfl, rfl, rfl, rfl⟩
      · rw [if_neg h]; exact sameIdT_refl c

/-- C9: executing `search` leaves every stored chunk's identity fields
(name, path, line number, content/code, file type, category) unchanged and
preserves the chunk store's length and order; only `score` fields are
rewritten (in both variants — in the embedding variant this holds even when
the tuple sort raises, since the mutations happen before the sort). -/
theorem C9_search_frame :
    (∀ q ft k chunks, List.Forall₂ sameIdS ((simpleSearchRun q ft k chunks).2) chunks ∧
      ((simpleSearchRun q ft k chunks).2).length = chunks.length) ∧
    (∀ chunks sims ft k, List.Forall₂ sameIdT ((tppSearchRun chunks sims ft k).2) chunks ∧
      ((tppSearchRun chunks sims ft k).2).length = chunks.length) := by
  constructor
  · intro q ft k chunks
    have hf : List.Forall₂ sameIdS ((simpleSearchRun q ft k chunks).2) chunks := by
      unfold simpleSearchRun
      by_cases hemp : chunks.isEmpty
      · rw [if_pos hemp]
        exact (List.forall₂_same).mpr (fun a _ => sameIdS_refl a)
      · rw [if_neg hemp]
        apply forall₂_map_self
        intro a
        by_cases h1 : ftMatchS ft a
        · by_cases h2 : 0 < lexRaw (queryWordsS q) a
          · rw [if_pos h1, if_pos h2]; exact ⟨rfl, rfl, rfl, rfl, rfl⟩
          · rw [if_pos h1, if_neg h2]; exact sameIdS_refl a
        · rw [if_neg h1]; exact sameIdS_refl a
    exact ⟨hf, hf.length_eq⟩
  · intro chunks sims ft k
    have hf : List.Forall₂ sameIdT ((tppSearchRun chunks sims ft k).2) chunks := by
      unfold tppSearchRun
      by_cases hemp : chunks.isEmpty
      · rw [if_pos hemp]
        exact (List.forall₂_same).mpr (fun a _ => sameIdT_refl a)
      · rw [if_neg hemp]
        exact tppStoreAfter_forall₂ sims chunks ft
    exact ⟨hf, hf.length_eq⟩

/-! ### Ranking: sortedness, stability, truncation -/

theorem tppScored_snd_score (chunks : List TPPCodeResult) (sims : List ℚ)
    (ft : Option (List Char)) :
    ∀ p ∈ tppScored chunks sims ft, p.2.score = p.1 := by
  intro p hp
  rcases List.mem_filterMap.mp hp with ⟨a, _, ha⟩
  by_cases h : ftMatchT ft a.2
  · rw [if_pos h, Option.some_inj] at ha
    subst ha
    rfl
  · rw [if_neg h] at ha
    exact absurd ha (by simp)

/-- C1 (amended): the lexical variant returns exactly the first `top_k`
elements of the stable descending sort (by score, ties in original
insertion order) of the scored candidates; the embedding variant does the
same *provided the similarity scores of its candidates are pairwise
distinct* — on an exact tie between chunks that differ in some field,
Python's tuple sort falls through to an unsupported chunk comparison and
raises `TypeError` instead (see the counterexample). -/
theorem C1_ranking :
    (∀ q ft k chunks, (simpleSearchRun q ft k chunks).1 =
        (sortDescBy (·.score) (lexCandidates q ft chunks)).take k) ∧
    (∀ q ft k chunks,
        ((simpleSearchRun q ft k chunks).1).Pairwise (fun a b => b.score ≤ a.score)) ∧
    (∀ q ft chunks s,
        (sortDescBy (·.score) (lexCandidates q ft chunks)).filter
            (fun c => decide (c.score = s)) =
          (lexCandidates q ft chunks).filter (fun c => decide (c.score = s))) ∧
    (∀ chunks sims ft k,
        (tppScored chunks sims ft).Pairwise (fun a b => a.1 ≠ b.1) →
        (tppSearchRun chunks sims ft k).1 =
            .ok (((sortDescBy (fun p : ℚ × TPPCodeResult => p.1)
                (tppScored chunks sims ft)).take k).map
                  (fun p : ℚ × TPPCodeResult => p.2)) ∧
          (((sortDescBy (fun p : ℚ × TPPCodeResult => p.1)
              (tppScored chunks sims ft)).take k).map
                (fun p : ℚ × TPPCodeResult => p.2)).Pairwise
            (fun a b => b.score ≤ a.score)) := by
  have hrun : ∀ q ft k chunks, (simpleSearchRun q ft k chunks).1 =
      (sortDescBy (·.score) (lexCandidates q ft chunks)).take k := by
    intro q ft k chunks
    unfold simpleSearchRun
    by_cases hemp : chunks.isEmpty
    · rw [if_pos hemp]
      have : chunks = [] := List.isEmpty_iff.mp hemp
      subst this
      simp [lexCandidates, sortDescBy]
    · rw [if_neg hemp]
  refine ⟨hrun, ?_, ?_, ?_⟩
  · intro q ft k chunks
    rw [hrun]
    exact (sortDescBy_pairwise (fun c : SearchResult => c.score) _).sublist
      (List.take_sublist k _)
  · intro q ft chunks s
    exact sortDescBy_filter_key (fun c : SearchResult => c.score) s _
  · intro chunks sims ft k h
    constructor
    · unfold tppSearchRun
      by_cases hemp : chunks.isEmpty
      · rw [if_pos hemp]
        have : chunks = [] := List.isEmpty_iff.mp hemp
        subst this
        simp [tppScored, sortDescBy]
      · rw [if_neg hemp]
        simp only [exceptSortDesc_eq _ h]
        rfl
    · have hp : ((sortDescBy (fun p : ℚ × TPPCodeResult => p.1)
          (tppScored chunks sims ft)).take k).Pairwise (fun a b => b.1 ≤ a.1) :=
        (sortDescBy_pairwise (fun p : ℚ × TPPCodeResult => p.1) _).sublist
          (List.take_sublist k _)
      have hsc : ∀ p ∈ (sortDescBy (fun p : ℚ × TPPCodeResult => p.1)
          (tppScored chunks sims ft)).take k, p.2.score = p.1 := by
        intro p hmem
        exact tppScored_snd_score chunks sims ft p
          ((mem_sortDescBy _ p _).mp (List.mem_of_mem_take hmem))
      rw [List.pairwise_map]
      exact hp.imp_of_mem (fun {a b} ha hb hab => by
        rw [hsc a ha, hsc b hb]; exact hab)

def tcA : TPPCodeResult :=
  ⟨['a'], [], 1, [], 0, ['j', 's'], []⟩

def tcB : TPPCodeResult :=
  ⟨['b'], [], 2, [], 0, ['j', 's'], []⟩

/-- Counterexample to C1 as stated: two chunks that differ (in name and
line) but receive exactly equal similarity scores make the embedding
variant's `scores.sort(reverse=True)` compare the chunk objects themselves,
which `TPPCodeResult` does not support — the search raises `TypeError`
instead of returning a stably sorted list. -/
theorem C1_ranking_tie_cex :
    (tppSearchRun [tcA, tcB] [1, 1] none 10).1 = .error () := by rfl

/-- Witness for `C1_ranking`: with pairwise-distinct similarities the
embedding variant returns the chunks sorted by descending score. -/
theorem C1_ranking_witness :
    (tppSearchRun [tcA, tcB] [1, 2] none 10).1 =
      .ok [{ tcB with score := 2 }, { tcA with score := 1 }] := by
  have h := C1_ranking.2.2.2 [tcA, tcB] [1, 2] none 10 (by decide)
  exact h.1.trans (by rfl)

/-! ### Cosine similarity: range and the unguarded zero-vector division -/

theorem sumSq_nonneg : ∀ u : List ℚ, 0 ≤ sumSq u := by
  intro u
  induction u with
  | nil => simp [sumSq, dotq]
  | cons a u ih =>
    have : sumSq (a :: u) = a * a + sumSq u := by
      simp [sumSq, dotq, List.zipWith]
    rw [this]
    exact add_nonneg (mul_self_nonneg a) ih

theorem cauchy_schwarz_list : ∀ u v : List ℚ, (dotq u v) ^ 2 ≤ sumSq u * sumSq v := by
  intro u
  induction u with
  | nil =>
    intro v
    simp [dotq, sumSq]
  | cons a u ih =>
    intro v
    cases v with
    | nil => simp [dotq, sumSq]
    | cons b v =>
      have h1 : dotq (a :: u) (b :: v) = a * b + dotq u v := by
        simp [dotq, List.zipWith]
      have h2 : sumSq (a :: u) = a * a + sumSq u := by
        simp [sumSq, dotq, List.zipWith]
      have h3 : sumSq (b :: v) = b * b + sumSq v := by
        simp [sumSq, dotq, List.zipWith]
      rw [h1, h2, h3]
      have hU := sumSq_nonneg u
      have hV := sumSq_nonneg v
      have hD := ih v
      rcases eq_or_lt_of_le hV with hV0 | hVpos
      · have h0 : (dotq u v) ^ 2 = 0 := by nlinarith [sq_nonneg (dotq u v)]
        have hD0 : dotq u v = 0 :=
          (pow_eq_zero_iff (by norm_num : (2 : ℕ) ≠ 0)).mp h0
        rw [hD0, ← hV0]
        nlinarith [mul_nonneg hU (mul_self_nonneg b), mul_nonneg hU hV]
      · nlinarith [sq_nonneg (a * sumSq v - b * dotq u v),
          mul_nonneg (sub_nonneg.mpr hD) (add_nonneg (mul_self_nonneg b) hV),
          hVpos, hU]

theorem length_filterMap_if {α β : Type _} (q : α → Bool) (f : α → β) :
    ∀ l : List α, (l.filterMap (fun a => if q a then some (f a) else none)).length =
      (l.filter q).length := by
  intro l
  induction l with
  | nil => rfl
  | cons x xs ih =>
    by_cases h : q x <;> simp [List.filterMap_cons, List.filter_cons, h, ih]

/-- C3 (amended): whenever both the query vector and the chunk vector have
nonzero magnitude, the cosine similarity — the unique real `s` with
`s * (‖u‖ * ‖v‖) = u ⬝ v` — lies in `[-1, 1]`; and the scorer applies no
similarity-based exclusion: every chunk passing the file-type filter is
scored and kept as a candidate.  (When a vector has zero magnitude the
code's unguarded division is `0.0/0.0 = NaN`, not `0` — see the
counterexample.) -/
theorem C3_cosine_range :
    (∀ (u v : List ℚ) (s : ℝ), 0 < sumSq u → 0 < sumSq v →
        s * (Real.sqrt (sumSq u) * Real.sqrt (sumSq v)) = (dotq u v : ℝ) →
        -1 ≤ s ∧ s ≤ 1) ∧
    (∀ chunks sims ft, (tppScored chunks sims ft).length =
        ((sims.zip chunks).filter (fun p => ftMatchT ft p.2)).length) := by
  constructor
  · intro u v s hu hv heq
    have ha : (0 : ℝ) < (sumSq u : ℝ) := by exact_mod_cast hu
    have hb : (0 : ℝ) < (sumSq v : ℝ) := by exact_mod_cast hv
    have hsa : Real.sqrt (sumSq u) * Real.sqrt (sumSq u) = (sumSq u : ℝ) :=
      Real.mul_self_sqrt ha.le
    have hsb : Real.sqrt (sumSq v) * Real.sqrt (sumSq v) = (sumSq v : ℝ) :=
      Real.mul_self_sqrt hb.le
    have hcs : ((dotq u v : ℚ) : ℝ) ^ 2 ≤ (sumSq u : ℝ) * (sumSq v : ℝ) := by
      have := cauchy_schwarz_list u v
      exact_mod_cast this
    have hss : (Real.sqrt (sumSq u) * Real.sqrt (sumSq v)) ^ 2 =
        (sumSq u : ℝ) * (sumSq v : ℝ) := by
      rw [mul_pow, sq, sq, hsa, hsb]
    have hs2 : s ^ 2 * ((sumSq u : ℝ) * (sumSq v : ℝ)) = ((dotq u v : ℚ) : ℝ) ^ 2 := by
      calc s ^ 2 * ((sumSq u : ℝ) * (sumSq v : ℝ))
          = s ^ 2 * (Real.sqrt (sumSq u) * Real.sqrt (sumSq v)) ^ 2 := by rw [hss]
        _ = (s * (Real.sqrt (sumSq u) * Real.sqrt (sumSq v))) ^ 2 := by ring
        _ = ((dotq u v : ℚ) : ℝ) ^ 2 := by rw [heq]
    have hab : (0 : ℝ) < (sumSq u : ℝ) * (sumSq v : ℝ) := mul_pos ha hb
    have hs1 : s ^ 2 ≤ 1 := by
      have h := hs2.le.trans hcs
      nlinarith [h, hab]
    constructor <;> nlinarith [sq_nonneg (s + 1), sq_nonneg (s - 1)]
  · intro chunks sims ft
    exact length_filterMap_if _ _ _

def tcC : TPPCodeResult :=
  ⟨['c'], [], 3, [], 0, ['j', 's'], []⟩

/-- Counterexample to C3 as stated: with a zero-magnitude vector the
denominator of the code's similarity expression is `0`, so the unguarded
`numpy` division yields `NaN` — the chunk does *not* receive score `0`, and
it is not excluded from the scored candidates either (the scored list keeps
every non-filtered chunk regardless of its similarity value). -/
theorem C3_zero_vector_cex :
    simDefined [0, 0] [1, 0] = false ∧
      (tppScored [tcC] [0] none).map (fun p : ℚ × TPPCodeResult => p.2.name) =
        [['c']] := by
  refine ⟨?_, rfl⟩
  simp [simDefined, sumSq, dotq, List.zipWith_cons_cons]

/-- Witness for `C3_cosine_range`: the vectors `[3,4]` against themselves,
similarity `1`. -/
theorem C3_cosine_range_witness :
    0 < sumSq [3, 4] ∧
      (1 : ℝ) * (Real.sqrt (sumSq [3, 4]) * Real.sqrt (sumSq [3, 4])) =
        (dotq [3, 4] [3, 4] : ℝ) ∧
      (-1 ≤ (1 : ℝ) ∧ (1 : ℝ) ≤ 1) := by
  have e : sumSq [3, 4] = 25 := by
    norm_num [sumSq, dotq, List.zipWith_cons_cons]
  have ed : dotq [3, 4] [3, 4] = 25 := by
    norm_num [dotq, List.zipWith_cons_cons]
  have h1 : (0 : ℚ) < sumSq [3, 4] := by rw [e]; norm_num
  have h2 : (1 : ℝ) * (Real.sqrt (sumSq [3, 4]) * Real.sqrt (sumSq [3, 4])) =
      (dotq [3, 4] [3, 4] : ℝ) := by
    rw [one_mul, Real.mul_self_sqrt (by exact_mod_cast h1.le), e, ed]
  exact ⟨h1, h2, C3_cosine_range.1 [3, 4] [3, 4] 1 h1 h1 h2⟩

/-! ### Structured-data extraction (`TPPCodeSearch._extract_json_structure`)

`json.loads` is Python's standard library; its outcome is modelled as an
`Option PyJson` input (`none` = `JSONDecodeError`, which the code swallows
with `pass`).  `json.dumps(value, indent=2)` is modelled by `dumpJ` below
(numbers restricted to integers, minimal string escaping — the claims do
not depend on the serialization details). -/

/-- Values produced by `json.loads`.  Python dicts preserve insertion
order, so objects are association lists keyed by their key text.  (Numbers
are restricted to integers in this model.) -/
inductive PyJson where
  | obj (kvs : List (List Char × PyJson))
  | arr (xs : List PyJson)
  | str (s : List Char)
  | num (n : Int)
  | bool (b : Bool)
  | null

/-- JSON string escaping for one character (the common escapes). -/
def escChar (c : Char) : List Char :=
  if c = '"' then ['\\', '"']
  else if c = '\\' then ['\\', '\\']
  else if c = '\n' then ['\\', 'n']
  else [c]

mutual

/-- Model of `json.dumps(v, indent=2)` at indentation level `ind`. -/
def dumpJ (ind : Nat) : PyJson → List Char
  | .null => "null".toList
  | .bool true => "true".toList
  | .bool false => "false".toList
  | .num n => (toString n).toList
  | .str s => '"' :: (s.flatMap escChar) ++ ['"']
  | .arr [] => ['[', ']']
  | .arr (x :: xs) =>
      '[' :: '\n' :: (List.replicate (ind + 2) ' ' ++ dumpJ (ind + 2) x ++
        dumpArrTail (ind + 2) xs ++ '\n' :: List.replicate ind ' ' ++ [']'])
  | .obj [] => ['\x7b', '\x7d']
  | .obj (kv :: kvs) =>
      '\x7b' :: '\n' :: (List.replicate (ind + 2) ' ' ++ dumpKV (ind + 2) kv ++
        dumpObjTail (ind + 2) kvs ++ '\n' :: List.replicate ind ' ' ++ ['\x7d'])

/-- One `"key": value` item. -/
def dumpKV (ind : Nat) : List Char × PyJson → List Char
  | (k, v) => '"' :: (k.flatMap escChar) ++ '"' :: ':' :: ' ' :: dumpJ ind v

/-- Remaining array items, each preceded by `",\n" + indent`. -/
def dumpArrTail (ind : Nat) : List PyJson → List Char
  | [] => []
  | x :: xs => ',' :: '\n' :: (List.replicate ind ' ' ++ dumpJ ind x ++ dumpArrTail ind xs)

/-- Remaining object items, each preceded by `",\n" + indent`. -/
def dumpObjTail (ind : Nat) : List (List Char × PyJson) → List Char
  | [] => []
  | kv :: kvs => ',' :: '\n' :: (List.replicate ind ' ' ++ dumpKV ind kv ++ dumpObjTail ind kvs)

end

/-- `TPPCodeSearch._extract_json_structure`: on parse failure emit nothing
(no error escapes); on a dict emit one chunk per top-level key, named
`config-<key>`, at line 1, whose content is `f'"{key}": {value_str}'` with
`value_str = json.dumps(value, indent=2)[:300]`; any non-dict document
emits nothing. -/
def extractJsonStructure (parsed : Option PyJson) (path category : List Char) :
    List TPPCodeResult :=
  match parsed with
  | none => []
  | some (.obj kvs) =>
      kvs.map fun kv =>
        { name := ['c', 'o', 'n', 'f', 'i', 'g', '-'] ++ kv.1
          file_path := path
          line_number := 1
          code := ('"' :: kv.1 ++ ['"', ':', ' ']) ++ (dumpJ 0 kv.2).take 300
          score := 0
          file_type := ['j', 's', 'o', 'n']
          category := category }
  | some _ => []

/-- C7: JSON extraction never raises outward: a text that fails to parse
contributes zero chunks; a document parsing to an object yields exactly one
chunk per top-level key, named `config-<key>`, with the length-capped
(300-character) serialization of the key's value in its content; a
non-object top-level document yields no chunks. -/
theorem C7_json_extraction :
    (∀ path cat, extractJsonStructure none path cat = []) ∧
    (∀ kvs path cat,
        (extractJsonStructure (some (.obj kvs)) path cat).map
            (fun c : TPPCodeResult => c.name) =
          kvs.map (fun kv => ['c', 'o', 'n', 'f', 'i', 'g', '-'] ++ kv.1) ∧
        (extractJsonStructure (some (.obj kvs)) path cat).map
            (fun c : TPPCodeResult => c.code) =
          kvs.map (fun kv => ('"' :: kv.1 ++ ['"', ':', ' ']) ++ (dumpJ 0 kv.2).take 300) ∧
        (extractJsonStructure (some (.obj kvs)) path cat).length = kvs.length) ∧
    (∀ j path cat, (∀ kvs, j ≠ .obj kvs) → extractJsonStructure (some j) path cat = []) := by
  refine ⟨fun _ _ => rfl, ?_, ?_⟩
  · intro kvs path cat
    refine ⟨?_, ?_, ?_⟩ <;> simp [extractJsonStructure, List.map_map, Function.comp]
  · intro j path cat h
    cases j with
    | obj kvs => exact absurd rfl (h kvs)
    | null => rfl
    | bool b => rfl
    | num n => rfl
    | str s => rfl
    | arr xs => rfl

def siteW : List Char := ['s', 'i', 't', 'e']

def themeW : List Char := ['t', 'h', 'e', 'm', 'e']

/-- Witness for `C7_json_extraction`: a non-object document yields nothing,
and `{"site": {...}, "theme": {...}}` yields exactly the two chunks
`config-site` and `config-theme`. -/
theorem C7_json_extraction_witness :
    extractJsonStructure (some (.num 3)) [] [] = [] ∧
      (extractJsonStructure (some (.obj [(siteW, .obj []), (themeW, .obj [])])) [] []).map
          (fun c : TPPCodeResult => c.name) =
        [['c', 'o', 'n', 'f', 'i', 'g', '-'] ++ siteW,
          ['c', 'o', 'n', 'f', 'i', 'g', '-'] ++ themeW] := by
  constructor
  · exact C7_json_extraction.2.2 (.num 3) [] [] (fun kvs h => by cases h)
  · rw [(C7_json_extraction.2.1 [(siteW, .obj []), (themeW, .obj [])] [] []).1]
    rfl

/-- C10: every chunk emitted by the structured-data extractor has
`line_number = 1`, regardless of where its top-level key appears in the
source file (the code hardcodes `line_number=1`). -/
theorem C10_json_line_number (parsed : Option PyJson) (path cat : List Char)
    (c : TPPCodeResult) (h : c ∈ extractJsonStructure parsed path cat) :
    c.line_number = 1 := by
  cases parsed with
  | none => cases h
  | some j =>
    cases j with
    | obj kvs =>
      rcases List.mem_map.mp h with ⟨kv, _, rfl⟩
      rfl
    | null => cases h
    | bool b => cases h
    | num n => cases h
    | str s => cases h
    | arr xs => cases h

def jc0 : TPPCodeResult :=
  { name := ['c', 'o', 'n', 'f', 'i', 'g', '-'] ++ siteW
    file_path := []
    line_number := 1
    code := ('"' :: siteW ++ ['"', ':', ' ']) ++ (dumpJ 0 .null).take 300
    score := 0
    file_type := ['j', 's', 'o', 'n']
    category := [] }

/-- Witness for `C10_json_line_number` on the document `{"site": null}`. -/
theorem C10_json_line_number_witness : jc0.line_number = 1 :=
  C10_json_line_number (some (.obj [(siteW, .null)])) [] [] jc0
    ((show extractJsonStructure (some (.obj [(siteW, PyJson.null)])) [] [] = [jc0]
        from rfl) ▸ List.mem_singleton_self jc0)

/-! ### Regex matchers

Each `re` pattern used by the extractors is compiled by hand into a
deterministic scanner on the suffix starting at the match position.  For
the JS/markdown patterns every quantified class is disjoint from what
follows it, so greedy matching needs no backtracking; for the HTML pattern
`<(tag...)[^>]*(?:id|class)=["\']([^"\']+)["\'][^>]*>` the greedy leading
`[^>]*` is modelled by trying the split point from largest to smallest
(`tryAttrFrom`), exactly the backtracking order of the Python engine.
A matcher returns the captured data and the remaining suffix. -/

/-- Consume one expected character. -/
def eatChar (c : Char) : List Char → Option (List Char)
  | [] => none
  | d :: rest => if d = c then some rest else none

/-- Consume a case-sensitive literal. -/
def eatLit (lit s : List Char) : Option (List Char) :=
  if s.take lit.length = lit then some (s.drop lit.length) else none

/-- Consume a case-insensitive literal (`lit` given lowercase); returns the
original matched text and the rest. -/
def eatLitCI (lit s : List Char) : Option (List Char × List Char) :=
  if lowerStr (s.take lit.length) = lit then
    some (s.take lit.length, s.drop lit.length)
  else none

/-- Regex `\s+`. -/
def eatWs1 : List Char → Option (List Char)
  | [] => none
  | c :: rest => if isPySpace c then some (rest.dropWhile isPySpace) else none

/-- Regex `(\w+)` — the greedy nonempty word capture. -/
def eatWord (s : List Char) : Option (List Char × List Char) :=
  let w := s.takeWhile isWordChar
  if w.isEmpty then none else some (w, s.dropWhile isWordChar)

/-- Regex `\s*c` for a single following character `c`. -/
def eatWsThen (c : Char) (s : List Char) : Option (List Char) :=
  eatChar c (s.dropWhile isPySpace)

/-- Regex `[^)]*\)`. -/
def eatParenBody (s : List Char) : Option (List Char) :=
  eatChar ')' (s.dropWhile (fun c => !(c = ')')))

def functionLit : List Char := "function".toList

def constLit : List Char := "const".toList

/-- `tpp_code_search.py` JS pattern `function\s+(\w+)\s*\([^)]*\)\s*\{`. -/
def matchTppFunc (s : List Char) : Option (List Char × List Char) := do
  let s1 ← eatLit functionLit s
  let s2 ← eatWs1 s1
  let (nm, s3) ← eatWord s2
  let s4 ← eatWsThen '(' s3
  let s5 ← eatParenBody s4
  let s6 ← eatWsThen '\x7b' s5
  pure (nm, s6)

/-- JS pattern `const\s+(\w+)\s*=\s*\([^)]*\)\s*=>\s*\{`. -/
def matchTppArrow (s : List Char) : Option (List Char × List Char) := do
  let s1 ← eatLit constLit s
  let s2 ← eatWs1 s1
  let (nm, s3) ← eatWord s2
  let s4 ← eatWsThen '=' s3
  let s5 ← eatWsThen '(' s4
  let s6 ← eatParenBody s5
  let s7 ← eatWsThen '=' s6
  let s8 ← eatChar '>' s7
  let s9 ← eatWsThen '\x7b' s8
  pure (nm, s9)

/-- JS pattern `(\w+)\s*:\s*function\s*\([^)]*\)\s*\{`. -/
def matchTppMethod (s : List Char) : Option (List Char × List Char) := do
  let (nm, s1) ← eatWord s
  let s2 ← eatWsThen ':' s1
  let s3 ← eatLit functionLit (s2.dropWhile isPySpace)
  let s4 ← eatWsThen '(' s3
  let s5 ← eatParenBody s4
  let s6 ← eatWsThen '\x7b' s5
  pure (nm, s6)

/-- JS pattern `(\w+)\s*\([^)]*\)\s*\{` (method shorthand). -/
def matchTppShorthand (s : List Char) : Option (List Char × List Char) := do
  let (nm, s1) ← eatWord s
  let s2 ← eatWsThen '(' s1
  let s3 ← eatParenBody s2
  let s4 ← eatWsThen '\x7b' s3
  pure (nm, s4)

/-- `simple_tpp_search.py` JS pattern `function\s+(\w+)\s*\(`. -/
def matchSimpleFunc (s : List Char) : Option (List Char × List Char) := do
  let s1 ← eatLit functionLit s
  let s2 ← eatWs1 s1
  let (nm, s3) ← eatWord s2
  let s4 ← eatWsThen '(' s3
  pure (nm, s4)

/-- JS pattern `const\s+(\w+)\s*=\s*\(`. -/
def matchSimpleConst (s : List Char) : Option (List Char × List Char) := do
  let s1 ← eatLit constLit s
  let s2 ← eatWs1 s1
  let (nm, s3) ← eatWord s2
  let s4 ← eatWsThen '=' s3
  let s5 ← eatWsThen '(' s4
  pure (nm, s5)

/-- JS pattern `(\w+)\s*:\s*function\s*\(`. -/
def matchSimpleMethod (s : List Char) : Option (List Char × List Char) := do
  let (nm, s1) ← eatWord s
  let s2 ← eatWsThen ':' s1
  let s3 ← eatLit functionLit (s2.dropWhile isPySpace)
  let s4 ← eatWsThen '(' s3
  pure (nm, s4)

/-- The part `(?:id|class)=["\']([^"\']+)["\'][^>]*>` of the HTML section
pattern, anchored at `s`; returns the captured identifier and the rest. -/
def htmlAttrAfter (s : List Char) : Option (List Char × List Char) := do
  let s1 ← ((eatLitCI "id=".toList s).map (fun r => r.2)) <|>
    ((eatLitCI "class=".toList s).map (fun r => r.2))
  match s1 with
  | [] => none
  | q :: s2 =>
    if q = '"' ∨ q = '\'' then
      let ident := s2.takeWhile (fun c => !(c = '"' || c = '\''))
      let s3 := s2.dropWhile (fun c => !(c = '"' || c = '\''))
      if ident.isEmpty then none
      else
        match s3 with
        | [] => none
        | _ :: s4 => eatChar '>' (s4.dropWhile (fun c => !(c = '>'))) |>.map (ident, ·)
    else none

/-- Greedy `[^>]*` before the attribute part: try the largest split first,
backing off one character at a time (Python's backtracking order). -/
def tryAttrFrom : Nat → List Char → Option (List Char × List Char)
  | 0, r => htmlAttrAfter r
  | j + 1, r => (htmlAttrAfter (r.drop (j + 1))) <|> tryAttrFrom j r

/-- First tag of the alternation that matches (case-insensitively); the tag
literals are pairwise non-prefix, so at most one can match and the
alternation is deterministic. -/
def firstTagCI : List (List Char) → List Char → Option (List Char × List Char)
  | [], _ => none
  | t :: ts, s => (eatLitCI t s) <|> firstTagCI ts s

/-- HTML pattern `<(t1|...|tn)[^>]*(?:id|class)=["\']([^"\']+)["\'][^>]*>`
with `re.IGNORECASE`; captures the original-case tag text and the
identifier. -/
def matchHtmlSection (tags : List (List Char)) (s : List Char) :
    Option ((List Char × List Char) × List Char) := do
  let s0 ← eatChar '<' s
  let (tagO, r) ← firstTagCI tags s0
  let (ident, rest) ← tryAttrFrom (r.takeWhile (fun c => !(c = '>'))).length r
  pure ((tagO, ident), rest)

/-- HTML pattern `<form[^>]*>` with `re.IGNORECASE`. -/
def matchForm (s : List Char) : Option (Unit × List Char) := do
  let s0 ← eatChar '<' s
  let (_, s1) ← eatLitCI "form".toList s0
  let s2 ← eatChar '>' (s1.dropWhile (fun c => !(c = '>')))
  pure ((), s2)

/-- `action=["\']([^"\']+)["\']` anchored at `s` (case-sensitive). -/
def matchActionAt (s : List Char) : Option (List Char) := do
  let s1 ← eatLit "action=".toList s
  match s1 with
  | [] => none
  | q :: s2 =>
    if q = '"' ∨ q = '\'' then
      let ident := s2.takeWhile (fun c => !(c = '"' || c = '\''))
      let s3 := s2.dropWhile (fun c => !(c = '"' || c = '\''))
      if ident.isEmpty then none
      else match s3 with
        | [] => none
        | _ :: _ => some ident
    else none

/-- `re.search` of the action pattern: leftmost match. -/
def searchAction : List Char → Option (List Char)
  | [] => none
  | c :: rest => (matchActionAt (c :: rest)) <|> searchAction rest

/-! ### `re.finditer`: leftmost, non-overlapping matches

`finditerF` is fuel-indexed so that it is structurally recursive (and hence
kernel-computable); the fuel is always instantiated with the length of the
scanned suffix.  A match entry is `(position, captures, length)`. -/

/-- Wrap a matcher returning the remaining suffix into one returning the
consumed length. -/
def toTm (m : List Char → Option (γ × List Char)) (s : List Char) :
    Option (γ × Nat) :=
  (m s).map (fun r => (r.1, s.length - r.2.length))

def finditerF (tm : List Char → Option (γ × Nat)) :
    Nat → List Char → Nat → List (Nat × γ × Nat)
  | 0, _, _ => []
  | _ + 1, [], _ => []
  | fuel + 1, c :: rest, p =>
    match tm (c :: rest) with
    | some (g, k) =>
        (p, g, k) :: finditerF tm fuel (rest.drop (max k 1 - 1)) (p + max k 1)
    | none => finditerF tm fuel rest (p + 1)

/-- All matches of `tm` in `s`, reporting positions relative to `p`. -/
def finditerFrom (tm : List Char → Option (γ × Nat)) (s : List Char) (p : Nat) :
    List (Nat × γ × Nat) :=
  finditerF tm s.length s p

/-- `re.finditer(pattern, content)`. -/
def finditer (tm : List Char → Option (γ × Nat)) (s : List Char) :
    List (Nat × γ × Nat) :=
  finditerFrom tm s 0

/-- The `while pos < len(content) and brace_count > 0` loop: number of
characters consumed before the loop stops. -/
def scanBraces : List Char → Nat → Nat
  | [], _ => 0
  | c :: rest, depth =>
    if depth = 0 then 0
    else 1 + scanBraces rest
      (if c = '\x7b' then depth + 1 else if c = '\x7d' then depth - 1 else depth)

/-! ### The extractors of C4/C5/C6 -/

def htmlW : List Char := "html".toList

def jsW : List Char := "js".toList

def simpleHtmlTags : List (List Char) :=
  ["section".toList, "div".toList, "nav".toList, "header".toList, "footer".toList]

def tppHtmlTags : List (List Char) :=
  ["section".toList, "div".toList, "header".toList, "footer".toList,
    "nav".toList, "main".toList, "article".toList]

/-- Chunk built for one section match by
`SimpleTTPSearch._extract_html_sections` (fixed trailing line window). -/
def simpleSectionChunk (content : List Char) (lines : List (List Char))
    (path : List Char) (m : Nat × (List Char × List Char) × Nat) : SearchResult :=
  let startLine := countNl (content.take m.1) + 1
  { name := m.2.1.1 ++ '-' :: m.2.1.2
    file_path := path
    line_number := startLine
    content := joinNl (pySlice (startLine - 5) (min (startLine + 15) lines.length) lines)
    file_type := htmlW
    score := 0 }

/-- Chunk built for one form match by the simple variant. -/
def simpleFormChunk (content : List Char) (lines : List (List Char))
    (path : List Char) (m : Nat × Unit × Nat) : SearchResult :=
  let startLine := countNl (content.take m.1) + 1
  { name := "form-element".toList
    file_path := path
    line_number := startLine
    content := joinNl (pySlice (startLine - 2) (min (startLine + 20) lines.length) lines)
    file_type := htmlW
    score := 0 }

/-- `SimpleTTPSearch._extract_html_sections`. -/
def extractHtmlSectionsSimple (content path : List Char) : List SearchResult :=
  let lines := splitNl content
  ((finditer (toTm (matchHtmlSection simpleHtmlTags)) content).map
    (simpleSectionChunk content lines path)) ++
  ((finditer (toTm matchForm) content).map (simpleFormChunk content lines path))

/-- Chunk built for one section match by
`TPPCodeSearch._extract_html_components`: emitted only when the literal
closing tag occurs after the match; content runs to the closing tag's line
(+1) and is capped at 1000 characters. -/
def tppSectionChunk (content : List Char) (lines : List (List Char))
    (path cat : List Char) (m : Nat × (List Char × List Char) × Nat) :
    Option TPPCodeResult :=
  match pyFind ('<' :: '/' :: m.2.1.1 ++ ['>']) content (m.1 + m.2.2) with
  | none => none
  | some ep =>
    let startLine := countNl (content.take m.1) + 1
    let endLine := countNl (content.take ep) + 1
    some { name := m.2.1.1 ++ '#' :: m.2.1.2
           file_path := path
           line_number := startLine
           code := capWithEllipsis 1000
             (joinNl (pySlice (startLine - 1) (min (endLine + 1) lines.length) lines))
           score := 0
           file_type := htmlW
           category := cat }

/-- Chunk built for one form match by the richer variant. -/
def tppFormChunk (content : List Char) (lines : List (List Char))
    (path cat : List Char) (m : Nat × Unit × Nat) : Option TPPCodeResult :=
  match pyFind "</form>".toList content (m.1 + m.2.2) with
  | none => none
  | some ep =>
    let startLine := countNl (content.take m.1) + 1
    let endLine := countNl (content.take ep) + 1
    some { name := "form-".toList ++
             ((searchAction (pySlice m.1 (m.1 + m.2.2) content)).getD "form".toList)
           file_path := path
           line_number := startLine
           code := capWithEllipsis 500
             (joinNl (pySlice (startLine - 1) (min (endLine + 1) lines.length) lines))
           score := 0
           file_type := htmlW
           category := cat }

/-- `TPPCodeSearch._extract_html_components`. -/
def extractHtmlComponentsTpp (content path cat : List Char) : List TPPCodeResult :=
  let lines := splitNl content
  ((finditer (toTm (matchHtmlSection tppHtmlTags)) content).filterMap
    (tppSectionChunk content lines path cat)) ++
  ((finditer (toTm matchForm) content).filterMap (tppFormChunk content lines path cat))

/-- Chunk built for one JS match by `TPPCodeSearch._extract_js_functions`:
the construct's end is found by the balanced-brace scan starting just after
the match (which already consumed the opening brace, hence initial depth
1); content is the lines from the match line to the scan's end line, capped
at 800 characters. -/
def tppJsChunk (content : List Char) (lines : List (List Char))
    (path cat : List Char) (m : Nat × List Char × Nat) : TPPCodeResult :=
  let startLine := countNl (content.take m.1) + 1
  let endAbs := (m.1 + m.2.2) + scanBraces (content.drop (m.1 + m.2.2)) 1
  let endLine := countNl (content.take endAbs) + 1
  { name := m.2.1
    file_path := path
    line_number := startLine
    code := capWithEllipsis 800
      (joinNl (pySlice (startLine - 1) (min endLine lines.length) lines))
    score := 0
    file_type := jsW
    category := cat }

/-- `TPPCodeSearch._extract_js_functions` (the four patterns run one after
the other, so the chunk stream is grouped by pattern). -/
def extractJsFunctionsTpp (content path cat : List Char) : List TPPCodeResult :=
  let lines := splitNl content
  ((finditer (toTm matchTppFunc) content).map (tppJsChunk content lines path cat)) ++
  ((finditer (toTm matchTppArrow) content).map (tppJsChunk content lines path cat)) ++
  ((finditer (toTm matchTppMethod) content).map (tppJsChunk content lines path cat)) ++
  ((finditer (toTm matchTppShorthand) content).map (tppJsChunk content lines path cat))

/-- Chunk built for one JS match by `SimpleTTPSearch._extract_js_functions`:
a fixed window of lines around the match, no brace matching, no cap. -/
def simpleJsChunk (content : List Char) (lines : List (List Char))
    (path : List Char) (m : Nat × List Char × Nat) : SearchResult :=
  let startLine := countNl (content.take m.1) + 1
  { name := m.2.1
    file_path := path
    line_number := startLine
    content := joinNl (pySlice (startLine - 2) (min (startLine + 15) lines.length) lines)
    file_type := jsW
    score := 0 }

/-- `SimpleTTPSearch._extract_js_functions` (three patterns). -/
def extractJsFunctionsSimple (content path : List Char) : List SearchResult :=
  let lines := splitNl content
  ((finditer (toTm matchSimpleFunc) content).map (simpleJsChunk content lines path)) ++
  ((finditer (toTm matchSimpleConst) content).map (simpleJsChunk content lines path)) ++
  ((finditer (toTm matchSimpleMethod) content).map (simpleJsChunk content lines path))

/-! ### Markdown extraction (`TPPCodeSearch._extract_md_sections`) -/

/-- `re.match(r'^(#{1,6})\s+(.+)$', line)`: heading level and title. -/
def mdHeader (line : List Char) : Option (Nat × List Char) :=
  let k := (line.takeWhile (fun c => c = '#')).length
  if 1 ≤ k ∧ k ≤ 6 then
    let r := line.drop k
    let m := (r.takeWhile isPySpace).length
    if m = 0 then none
    else if m < r.length then some (k, r.drop m)
    else if 2 ≤ m then some (k, r.drop (m - 1))
    else none
  else none

/-- Lines of the section body: until the next heading of equal-or-shallower
level (exclusive). -/
def sectionTail (lvl : Nat) : List (List Char) → List (List Char)
  | [] => []
  | l :: ls =>
    match mdHeader l with
    | some p => if p.1 ≤ lvl then [] else l :: sectionTail lvl ls
    | none => l :: sectionTail lvl ls

/-- The enumerate loop of `_extract_md_sections`: `i` is the 0-based index
of the first line of `ls` in the file. -/
def mdWalk (path cat : List Char) : Nat → List (List Char) → List TPPCodeResult
  | _, [] => []
  | i, l :: ls =>
    match mdHeader l with
    | some lt =>
        { name := "doc-".toList ++ lt.2
          file_path := path
          line_number := i + 1
          code := joinNl ((l :: sectionTail lt.1 ls).take 20)
          score := 0
          file_type := "md".toList
          category := cat } :: mdWalk path cat (i + 1) ls
    | none => mdWalk path cat (i + 1) ls

/-- `TPPCodeSearch._extract_md_sections`. -/
def extractMdSections (content path cat : List Char) : List TPPCodeResult :=
  mdWalk path cat 0 (splitNl content)

/-! ### Lemmas about `finditer` -/

theorem finditerF_fuel (tm : List Char → Option (γ × Nat)) :
    ∀ f s p, s.length ≤ f → finditerF tm f s p = finditerF tm s.length s p := by
  intro f
  induction f using Nat.strong_induction_on with
  | _ f ih =>
    intro s p hle
    cases s with
    | nil => cases f <;> rfl
    | cons c rest =>
      cases f with
      | zero => simp at hle
      | succ f =>
        have hr : rest.length ≤ f := by simpa using hle
        show finditerF tm (f + 1) (c :: rest) p =
          finditerF tm (rest.length + 1) (c :: rest) p
        cases h : tm (c :: rest) with
        | none =>
          simp only [finditerF, h]
          rw [ih f (Nat.lt_succ_self f) rest (p + 1) hr,
            ih rest.length (by omega) rest (p + 1) (le_refl _)]
        | some gk =>
          rcases gk with ⟨g, k⟩
          simp only [finditerF, h]
          have hd : (rest.drop (max k 1 - 1)).length ≤ rest.length := by
            simp [List.length_drop]
          congr 1
          rw [ih f (Nat.lt_succ_self f) _ _ (le_trans hd hr),
            ih rest.length (by omega) _ _ hd]

theorem finditerF_shift (tm : List Char → Option (γ × Nat)) :
    ∀ f s p, finditerF tm f s p =
      (finditerF tm f s 0).map (fun m => (m.1 + p, m.2)) := by
  intro f
  induction f with
  | zero => intro s p; rfl
  | succ f ih =>
    intro s p
    cases s with
    | nil => rfl
    | cons c rest =>
      cases h : tm (c :: rest) with
      | none =>
        simp only [finditerF, h]
        rw [ih rest (p + 1), ih rest (0 + 1), List.map_map]
        congr 1
        funext m
        simp only [Function.comp]
        rw [Prod.mk.injEq]
        exact ⟨by omega, rfl⟩
      | some gk =>
        rcases gk with ⟨g, k⟩
        simp only [finditerF, h, List.map_cons]
        congr 1
        · rw [Prod.mk.injEq]
          exact ⟨by omega, rfl⟩
        · rw [ih _ (p + max k 1), ih _ (0 + max k 1), List.map_map]
          congr 1
          funext m
          simp only [Function.comp]
          rw [Prod.mk.injEq]
          exact ⟨by omega, rfl⟩

theorem finditerFrom_nl_skip (tm : List Char → Option (γ × Nat))
    (hnl : ∀ t, tm ('\n' :: t) = none) :
    ∀ n payload p, finditerFrom tm (List.replicate n '\n' ++ payload) p =
      finditerFrom tm payload (p + n) := by
  intro n
  induction n with
  | zero => intro payload p; simp [List.replicate]
  | succ n ih =>
    intro payload p
    have hrep : List.replicate (n + 1) '\n' ++ payload =
        '\n' :: (List.replicate n '\n' ++ payload) := by
      simp [List.replicate_succ]
    rw [hrep]
    show finditerF tm ('\n' :: (List.replicate n '\n' ++ payload)).length _ p = _
    have hlen : ('\n' :: (List.replicate n '\n' ++ payload)).length =
        (List.replicate n '\n' ++ payload).length + 1 := rfl
    rw [hlen]
    simp only [finditerF, hnl]
    have := ih payload (p + 1)
    unfold finditerFrom at this
    rw [this]
    congr 1
    omega

/-! ### Arithmetic of a newline prefix -/

theorem take_prefix_nl (n c : Nat) (payload : List Char) :
    (List.replicate n '\n' ++ payload).take (n + c) =
      List.replicate n '\n' ++ payload.take c := by
  rw [List.take_append_eq_append_take]
  congr 1
  · rw [List.take_replicate]
    congr 1
    omega
  · congr 1
    simp only [List.length_replicate]
    omega

theorem countNl_replicate_nl (n c : Nat) (payload : List Char) :
    countNl ((List.replicate n '\n' ++ payload).take (n + c)) =
      n + countNl (payload.take c) := by
  rw [take_prefix_nl]
  unfold countNl
  rw [List.count_append]
  congr 1
  simp [List.count_replicate]

theorem drop_prefix_nl (n c : Nat) (payload : List Char) :
    (List.replicate n '\n' ++ payload).drop (n + c) = payload.drop c := by
  rw [List.drop_append_eq_append_drop]
  have h1 : (List.replicate n '\n').drop (n + c) = [] :=
    List.drop_eq_nil_of_le (by simp only [List.length_replicate]; omega)
  rw [h1, List.nil_append]
  congr 1
  simp only [List.length_replicate]
  omega

theorem splitNl_replicate_nl : ∀ (n : Nat) (payload : List Char),
    splitNl (List.replicate n '\n' ++ payload) =
      List.replicate n [] ++ splitNl payload := by
  intro n
  induction n with
  | zero => intro payload; simp [List.replicate]
  | succ n ih =>
    intro payload
    rw [List.replicate_succ, List.cons_append, List.replicate_succ]
    show splitNl ('\n' :: _) = _
    rw [splitNl, if_pos rfl, ih]
    rfl

theorem drop_replicate_append (n : Nat) (x : α) (l : List α) :
    (List.replicate n x ++ l).drop n = l := by
  have := List.drop_left (List.replicate n x) l
  simp only [List.length_replicate] at this
  exact this

/-! ### The brace-depth characterization of `scanBraces` -/

/-- Depth change contributed by one character. -/
def braceDelta (c : Char) : Int :=
  if c = '\x7b' then 1 else if c = '\x7d' then -1 else 0

/-- Net depth change of a string. -/
def braceNet (s : List Char) : Int := (s.map braceDelta).sum

theorem braceNet_nil : braceNet [] = 0 := rfl

theorem braceNet_cons (c : Char) (s : List Char) :
    braceNet (c :: s) = braceDelta c + braceNet s := by
  simp [braceNet]

theorem scanBraces_spec :
    ∀ (s : List Char) (d : Nat), 0 < d →
      scanBraces s d ≤ s.length ∧
      (∀ i < scanBraces s d, 0 < (d : Int) + braceNet (s.take i)) ∧
      (scanBraces s d < s.length →
        (d : Int) + braceNet (s.take (scanBraces s d)) = 0) := by
  intro s
  induction s with
  | nil =>
    intro d hd
    refine ⟨Nat.le_refl 0, ?_, ?_⟩
    · intro i hi; exact absurd hi (by simp [scanBraces])
    · intro h; exact absurd h (by simp [scanBraces])
  | cons c rest ih =>
    intro d hd
    have hne : ¬ d = 0 := Nat.pos_iff_ne_zero.mp hd
    have hsc : scanBraces (c :: rest) d = 1 + scanBraces rest
        (if c = '\x7b' then d + 1 else if c = '\x7d' then d - 1 else d) := by
      rw [scanBraces, if_neg hne]
    set d' := (if c = '\x7b' then d + 1 else if c = '\x7d' then d - 1 else d) with hd'
    have hdelta : (d' : Int) = (d : Int) + braceDelta c := by
      by_cases h1 : c = '\x7b'
      · simp [hd', braceDelta, h1]
      · by_cases h2 : c = '\x7d'
        · simp [hd', braceDelta, h1, h2]; omega
        · simp [hd', braceDelta, h1, h2]
    by_cases hz : d' = 0
    · -- the loop stops right after this character
      have hstop : scanBraces rest d' = 0 := by
        rw [hz]; cases rest <;> simp [scanBraces]
      rw [hsc, hstop]
      refine ⟨by simp, ?_, ?_⟩
      · intro i hi
        have : i = 0 := by omega
        subst this
        simpa [braceNet] using hd
      · intro _
        have : (c :: rest).take 1 = [c] := rfl
        rw [this, braceNet_cons, braceNet_nil]
        have : (d' : Int) = 0 := by exact_mod_cast hz
        omega
    · have hd'pos : 0 < d' := Nat.pos_iff_ne_zero.mpr hz
      rcases ih d' hd'pos with ⟨ih1, ih2, ih3⟩
      rw [hsc]
      refine ⟨by simp only [List.length_cons]; omega, ?_, ?_⟩
      · intro i hi
        cases i with
        | zero => simpa [braceNet] using hd
        | succ j =>
          have hj : j < scanBraces rest d' := by omega
          have : (c :: rest).take (j + 1) = c :: rest.take j := rfl
          rw [this, braceNet_cons]
          have := ih2 j hj
          omega
      · intro hlt
        have hlt' : scanBraces rest d' < rest.length := by
          simp only [List.length_cons] at hlt
          omega
        have : (c :: rest).take (1 + scanBraces rest d') =
            c :: rest.take (scanBraces rest d') := by
          rw [Nat.add_comm]
          rfl
        rw [this, braceNet_cons]
        have := ih3 hlt'
        omega

/-! ### Concrete extraction fixtures -/

def navPayload : List Char := "<nav id=\"main-nav\">x</nav>".toList

def jsPayload : List Char := "function toggleMenu() \x7b\n  a;\n  b;\n\x7d".toList

def navW : List Char := "nav".toList

def mainNavW : List Char := "main-nav".toList

def toggleMenuW : List Char := "toggleMenu".toList

theorem tmHtmlS_nl (t : List Char) :
    toTm (matchHtmlSection simpleHtmlTags) ('\n' :: t) = none := rfl

theorem tmHtmlT_nl (t : List Char) :
    toTm (matchHtmlSection tppHtmlTags) ('\n' :: t) = none := rfl

theorem tmForm_nl (t : List Char) : toTm matchForm ('\n' :: t) = none := rfl

set_option linter.unnecessarySimpa false in
theorem countNl_take_self (n : Nat) (payload : List Char) :
    countNl ((List.replicate n '\n' ++ payload).take n) = n := by
  have := countNl_replicate_nl n 0 payload
  simpa [countNl] using this

/-! ### C4: markup extraction -/

/-- C4 (amended): extraction emits one chunk per match of the variant's
structural-tag pattern, named `<tag>-<identifier>` (simple variant) or
`<tag>#<identifier>` (richer variant), with `line_number` the 1-based line
at which the opening tag begins — but the simple variant's tag alternation
is only section/div/nav/header/footer (`main` and `article` are not
matched, see the counterexample), and the richer variant emits the chunk
only when the literal closing tag `</tag>` occurs after the opening tag
(last conjunct: no chunk without it). -/
theorem C4_html_extraction :
    (∀ n path, (extractHtmlSectionsSimple (List.replicate n '\n' ++ navPayload) path).map
        (fun c : SearchResult => (c.name, c.line_number)) =
      [(navW ++ '-' :: mainNavW, n + 1)]) ∧
    (∀ n path cat, (extractHtmlComponentsTpp (List.replicate n '\n' ++ navPayload) path cat).map
        (fun c : TPPCodeResult => (c.name, c.line_number)) =
      [(navW ++ '#' :: mainNavW, n + 1)]) ∧
    extractHtmlComponentsTpp "<nav id=\"x\">".toList [] [] = [] := by
  refine ⟨?_, ?_, rfl⟩
  · intro n path
    have hsec : finditer (toTm (matchHtmlSection simpleHtmlTags))
        (List.replicate n '\n' ++ navPayload) = [(n, (navW, mainNavW), 19)] := by
      unfold finditer
      rw [finditerFrom_nl_skip _ tmHtmlS_nl n navPayload 0]
      unfold finditerFrom
      rw [finditerF_shift,
        show finditerF (toTm (matchHtmlSection simpleHtmlTags))
          navPayload.length navPayload 0 = [(0, (navW, mainNavW), 19)] from rfl]
      simp
    have hform : finditer (toTm matchForm) (List.replicate n '\n' ++ navPayload) = [] := by
      unfold finditer
      rw [finditerFrom_nl_skip _ tmForm_nl n navPayload 0]
      unfold finditerFrom
      rw [finditerF_shift,
        show finditerF (toTm matchForm) navPayload.length navPayload 0 = [] from rfl]
      rfl
    simp only [extractHtmlSectionsSimple]
    rw [hsec, hform]
    simp only [List.map_cons, List.map_nil, List.map_append, List.append_nil,
      simpleSectionChunk, List.cons.injEq, Prod.mk.injEq, and_true]
    rw [countNl_take_self n navPayload]
    exact ⟨trivial, rfl⟩
  · intro n path cat
    have hsec : finditer (toTm (matchHtmlSection tppHtmlTags))
        (List.replicate n '\n' ++ navPayload) = [(n, (navW, mainNavW), 19)] := by
      unfold finditer
      rw [finditerFrom_nl_skip _ tmHtmlT_nl n navPayload 0]
      unfold finditerFrom
      rw [finditerF_shift,
        show finditerF (toTm (matchHtmlSection tppHtmlTags))
          navPayload.length navPayload 0 = [(0, (navW, mainNavW), 19)] from rfl]
      simp
    have hform : finditer (toTm matchForm) (List.replicate n '\n' ++ navPayload) = [] := by
      unfold finditer
      rw [finditerFrom_nl_skip _ tmForm_nl n navPayload 0]
      unfold finditerFrom
      rw [finditerF_shift,
        show finditerF (toTm matchForm) navPayload.length navPayload 0 = [] from rfl]
      rfl
    have hfind : pyFind ('<' :: '/' :: navW ++ ['>'])
        (List.replicate n '\n' ++ navPayload) (n + 19) = some (n + 20) := by
      unfold pyFind
      rw [drop_prefix_nl n 19 navPayload,
        show findIn ('<' :: '/' :: navW ++ ['>']) (navPayload.drop 19) = some 1 from rfl]
      show some (1 + (n + 19)) = some (n + 20)
      congr 1
      omega
    simp only [extractHtmlComponentsTpp]
    rw [hsec, hform]
    simp only [List.filterMap_cons, List.filterMap_nil, List.append_nil,
      tppSectionChunk, hfind]
    simp only [List.map_cons, List.map_nil, List.cons.injEq, Prod.mk.injEq, and_true]
    rw [countNl_take_self n navPayload]
    exact ⟨trivial, rfl⟩

/-- Counterexample to C4 as stated: `<main id="x"></main>` carries an
opening `main` tag with an `id` attribute, yet the simple variant emits no
chunk for it — its tag alternation stops at section/div/nav/header/footer. -/
theorem C4_main_tag_cex :
    extractHtmlSectionsSimple "<main id=\"x\"></main>".toList [] = [] := rfl

/-! ### C5: script extraction -/

def jsLines : List (List Char) :=
  ["function toggleMenu() \x7b".toList, "  a;".toList, "  b;".toList, "\x7d".toList]

theorem tmTppFunc_nl (t : List Char) : toTm matchTppFunc ('\n' :: t) = none := rfl

theorem tmTppArrow_nl (t : List Char) : toTm matchTppArrow ('\n' :: t) = none := rfl

theorem tmTppMethod_nl (t : List Char) : toTm matchTppMethod ('\n' :: t) = none := rfl

theorem tmTppShorthand_nl (t : List Char) : toTm matchTppShorthand ('\n' :: t) = none := rfl

/-- C5 (amended): in the richer variant the construct's end is determined
by counting balanced brace depth forward from the match until the depth
first returns to zero (or the file ends) — first conjunct — and the
emitted chunk's content spans the lines from the matched keyword's line to
the balanced closing brace's line, capped at 800 characters (second
conjunct, for any leading line offset; both the `function` pattern and the
overlapping method-shorthand pattern emit such a chunk).  The simple
variant does *not* brace-match: its chunk content is always the fixed
window `lines[start_line-2 : start_line+15]` around the match (third
conjunct; see the counterexample where this window misses the closing
brace). -/
theorem C5_js_extraction :
    (∀ (s : List Char) (d : Nat), 0 < d →
        scanBraces s d ≤ s.length ∧
        (∀ i < scanBraces s d, 0 < (d : Int) + braceNet (s.take i)) ∧
        (scanBraces s d < s.length →
          (d : Int) + braceNet (s.take (scanBraces s d)) = 0)) ∧
    (∀ n path cat, (extractJsFunctionsTpp (List.replicate n '\n' ++ jsPayload) path cat).map
        (fun c : TPPCodeResult => (c.name, c.line_number, c.code)) =
      [(toggleMenuW, n + 1, jsPayload), (toggleMenuW, n + 1, jsPayload)]) ∧
    (∀ content path c, c ∈ extractJsFunctionsSimple content path →
        c.content = joinNl (pySlice (c.line_number - 2)
          (min (c.line_number + 15) (splitNl content).length) (splitNl content))) := by
  refine ⟨scanBraces_spec, ?_, ?_⟩
  · intro n path cat
    have h1 : finditer (toTm matchTppFunc) (List.replicate n '\n' ++ jsPayload)
        = [(n, toggleMenuW, 23)] := by
      unfold finditer
      rw [finditerFrom_nl_skip _ tmTppFunc_nl n jsPayload 0]
      unfold finditerFrom
      rw [finditerF_shift,
        show finditerF (toTm matchTppFunc) jsPayload.length jsPayload 0
          = [(0, toggleMenuW, 23)] from rfl]
      simp
    have h2 : finditer (toTm matchTppArrow) (List.replicate n '\n' ++ jsPayload) = [] := by
      unfold finditer
      rw [finditerFrom_nl_skip _ tmTppArrow_nl n jsPayload 0]
      unfold finditerFrom
      rw [finditerF_shift,
        show finditerF (toTm matchTppArrow) jsPayload.length jsPayload 0 = [] from rfl]
      rfl
    have h3 : finditer (toTm matchTppMethod) (List.replicate n '\n' ++ jsPayload) = [] := by
      unfold finditer
      rw [finditerFrom_nl_skip _ tmTppMethod_nl n jsPayload 0]
      unfold finditerFrom
      rw [finditerF_shift,
        show finditerF (toTm matchTppMethod) jsPayload.length jsPayload 0 = [] from rfl]
      rfl
    have h4 : finditer (toTm matchTppShorthand) (List.replicate n '\n' ++ jsPayload)
        = [(n + 9, toggleMenuW, 14)] := by
      unfold finditer
      rw [finditerFrom_nl_skip _ tmTppShorthand_nl n jsPayload 0]
      unfold finditerFrom
      rw [finditerF_shift,
        show finditerF (toTm matchTppShorthand) jsPayload.length jsPayload 0
          = [(9, toggleMenuW, 14)] from rfl]
      simp only [List.map_cons, List.map_nil, List.cons.injEq, Prod.mk.injEq, and_true]
      omega
    have hlines : splitNl (List.replicate n '\n' ++ jsPayload) =
        List.replicate n [] ++ jsLines := by
      rw [splitNl_replicate_nl]
      rfl
    have hcnt35 : countNl ((List.replicate n '\n' ++ jsPayload).take (n + 23 + 12)) = n + 3 := by
      rw [show n + 23 + 12 = n + 35 from by omega, countNl_replicate_nl,
        show countNl (jsPayload.take 35) = 3 from rfl]
    have hcnt9 : countNl ((List.replicate n '\n' ++ jsPayload).take (n + 9)) = n := by
      rw [countNl_replicate_nl, show countNl (jsPayload.take 9) = 0 from rfl]
      omega
    have hA : tppJsChunk (List.replicate n '\n' ++ jsPayload)
        (splitNl (List.replicate n '\n' ++ jsPayload)) path cat (n, toggleMenuW, 23) =
        { name := toggleMenuW, file_path := path, line_number := n + 1, code := jsPayload,
          score := 0, file_type := jsW, category := cat } := by
      simp only [tppJsChunk]
      rw [drop_prefix_nl n 23 jsPayload,
        show scanBraces (jsPayload.drop 23) 1 = 12 from rfl,
        countNl_take_self n jsPayload, hcnt35, hlines,
        show (List.replicate n ([] : List Char) ++ jsLines).length = n + 4 from by
          simp [jsLines],
        show n + 1 - 1 = n from by omega, show n + 3 + 1 = n + 4 from by omega, min_self]
      unfold pySlice
      rw [drop_replicate_append, show n + 4 - n = 4 from by omega]
      rfl
    have hB : tppJsChunk (List.replicate n '\n' ++ jsPayload)
        (splitNl (List.replicate n '\n' ++ jsPayload)) path cat (n + 9, toggleMenuW, 14) =
        { name := toggleMenuW, file_path := path, line_number := n + 1, code := jsPayload,
          score := 0, file_type := jsW, category := cat } := by
      simp only [tppJsChunk]
      rw [show n + 9 + 14 = n + 23 from by omega]
      rw [drop_prefix_nl n 23 jsPayload,
        show scanBraces (jsPayload.drop 23) 1 = 12 from rfl,
        hcnt9, hcnt35, hlines,
        show (List.replicate n ([] : List Char) ++ jsLines).length = n + 4 from by
          simp [jsLines],
        show n + 1 - 1 = n from by omega, show n + 3 + 1 = n + 4 from by omega, min_self]
      unfold pySlice
      rw [drop_replicate_append, show n + 4 - n = 4 from by omega]
      rfl
    simp only [extractJsFunctionsTpp]
    rw [h1, h2, h3, h4]
    simp only [List.map_cons, List.map_nil, List.nil_append, List.append_nil, List.map_append]
    rw [hA, hB]
    rfl
  · intro content path c hc
    simp only [extractJsFunctionsSimple] at hc
    rcases List.mem_append.mp hc with hc | hc
    · rcases List.mem_append.mp hc with hc | hc
      · rcases List.mem_map.mp hc with ⟨m, _, rfl⟩
        rfl
      · rcases List.mem_map.mp hc with ⟨m, _, rfl⟩
        rfl
    · rcases List.mem_map.mp hc with ⟨m, _, rfl⟩
      rfl

def jsCexContent : List Char :=
  joinNl ("function toggleMenu() \x7b".toList ::
    (List.replicate 16 "a;".toList ++ ["\x7d".toList]))

/-- Counterexample to C5 as stated: an 18-line `function toggleMenu() {`
construct in the simple variant.  The emitted chunk's content is the fixed
16-line window, which does not even contain the function's balanced closing
brace (present in the file), so the content does not span from the matched
keyword to its balanced closing brace. -/
theorem C5_fixed_window_cex :
    (extractJsFunctionsSimple jsCexContent []).map (fun c : SearchResult => c.content) =
      [joinNl ("function toggleMenu() \x7b".toList :: List.replicate 15 "a;".toList)] ∧
    '\x7d' ∈ jsCexContent ∧
    ¬ '\x7d' ∈ joinNl ("function toggleMenu() \x7b".toList :: List.replicate 15 "a;".toList) :=
  ⟨rfl, by decide, by decide⟩

/-- Witness for `C5_js_extraction`: the brace scan on `"}x"` with initial
depth 1 stops after one character, where the depth has returned to zero. -/
theorem C5_js_extraction_witness :
    scanBraces ['\x7d', 'x'] 1 ≤ 2 ∧
      (1 : Int) + braceNet (['\x7d', 'x'].take (scanBraces ['\x7d', 'x'] 1)) = 0 := by
  have h := C5_js_extraction.1 ['\x7d', 'x'] 1 (by norm_num)
  exact ⟨h.1, h.2.2 (by decide)⟩

/-! ### C6: truncation caps and markers -/

theorem splitNl_ne_nil : ∀ s : List Char, splitNl s ≠ [] := by
  intro s
  cases s with
  | nil => simp [splitNl]
  | cons c rest =>
    by_cases hc : c = '\n'
    · simp [splitNl, hc]
    · simp only [splitNl, if_neg hc]
      cases h : splitNl rest <;> simp

theorem mem_splitNl_no_nl : ∀ (s l : List Char), l ∈ splitNl s → ¬ '\n' ∈ l := by
  intro s
  induction s with
  | nil =>
    intro l hl
    simp only [splitNl, List.mem_singleton] at hl
    subst hl
    simp
  | cons c rest ih =>
    intro l hl
    by_cases hc : c = '\n'
    · simp only [splitNl, if_pos hc] at hl
      rcases List.mem_cons.mp hl with rfl | hl2
      · simp
      · exact ih l hl2
    · cases h : splitNl rest with
      | nil => exact absurd h (splitNl_ne_nil rest)
      | cons l0 ls =>
        simp only [splitNl, if_neg hc, h] at hl
        rcases List.mem_cons.mp hl with rfl | hl2
        · intro hmem
          rcases List.mem_cons.mp hmem with h1 | h1
          · exact hc h1.symm
          · exact (ih l0 (by rw [h]; exact List.mem_cons_self l0 ls)) h1
        · exact ih l (by rw [h]; exact List.mem_cons.mpr (Or.inr hl2))

theorem splitNl_of_no_nl : ∀ l : List Char, ¬ '\n' ∈ l → splitNl l = [l] := by
  intro l
  induction l with
  | nil => intro _; rfl
  | cons c rest ih =>
    intro h
    have hc : ¬ c = '\n' := by
      intro hc; exact h (by simp [hc])
    have hr := ih (fun hm => h (by simp [hm]))
    simp only [splitNl, if_neg hc, hr]

theorem splitNl_append_nl : ∀ (l X : List Char), ¬ '\n' ∈ l →
    splitNl (l ++ '\n' :: X) = l :: splitNl X := by
  intro l
  induction l with
  | nil => intro X _; simp [splitNl]
  | cons c rest ih =>
    intro X h
    have hc : ¬ c = '\n' := by
      intro hc; exact h (by simp [hc])
    have hr := ih X (fun hm => h (by simp [hm]))
    simp only [List.cons_append, splitNl, if_neg hc, List.append_eq, hr]

theorem splitNl_joinNl : ∀ ls : List (List Char), ls ≠ [] →
    (∀ l ∈ ls, ¬ '\n' ∈ l) → splitNl (joinNl ls) = ls := by
  intro ls
  induction ls with
  | nil => intro h; exact absurd rfl h
  | cons l ls ih =>
    intro _ hnl
    cases ls with
    | nil => exact splitNl_of_no_nl l (hnl l (by simp))
    | cons l2 ls2 =>
      rw [show joinNl (l :: l2 :: ls2) = l ++ '\n' :: joinNl (l2 :: ls2) from rfl,
        splitNl_append_nl l _ (hnl l (by simp)),
        ih (by simp) (fun x hx => hnl x (by simp [hx]))]

theorem sectionTail_mem (lvl : Nat) : ∀ (ls : List (List Char)) (l : List Char),
    l ∈ sectionTail lvl ls → l ∈ ls := by
  intro ls
  induction ls with
  | nil => intro l h; exact absurd h (by simp [sectionTail])
  | cons x xs ih =>
    intro l h
    cases hh : mdHeader x with
    | some p =>
      simp only [sectionTail, hh] at h
      by_cases hp : p.1 ≤ lvl
      · rw [if_pos hp] at h
        exact absurd h (by simp)
      · rw [if_neg hp] at h
        rcases List.mem_cons.mp h with rfl | h2
        · exact List.mem_cons_self _ _
        · exact List.mem_cons.mpr (Or.inr (ih l h2))
    | none =>
      simp only [sectionTail, hh] at h
      rcases List.mem_cons.mp h with rfl | h2
      · exact List.mem_cons_self _ _
      · exact List.mem_cons.mpr (Or.inr (ih l h2))

theorem mdWalk_lines_le (path cat : List Char) :
    ∀ ls : List (List Char), (∀ l ∈ ls, ¬ '\n' ∈ l) →
      ∀ i c, c ∈ mdWalk path cat i ls → (splitNl c.code).length ≤ 20 := by
  intro ls
  induction ls with
  | nil => intro _ i c h; exact absurd h (by simp [mdWalk])
  | cons l ls ih =>
    intro hnl i c h
    cases hh : mdHeader l with
    | some lt =>
      simp only [mdWalk, hh] at h
      rcases List.mem_cons.mp h with rfl | h2
      · show (splitNl (joinNl ((l :: sectionTail lt.1 ls).take 20))).length ≤ 20
        rw [splitNl_joinNl _ (by simp [List.take]) ?_]
        · rw [List.length_take]
          exact min_le_left _ _
        · intro x hx
          have hx' : x ∈ l :: sectionTail lt.1 ls := List.mem_of_mem_take hx
          rcases List.mem_cons.mp hx' with rfl | hx2
          · exact hnl x (by simp)
          · exact hnl x (by simp [sectionTail_mem lt.1 ls x hx2])
      · exact ih (fun x hx => hnl x (by simp [hx])) (i + 1) c h2
    | none =>
      simp only [mdWalk, hh] at h
      exact ih (fun x hx => hnl x (by simp [hx])) (i + 1) c h

/-- C6 (amended): the marker-appending character-capped extractors of the
richer variant produce content of the exact shape `take cap ++ marker`,
with the ellipsis marker appended exactly when the raw content exceeded the
cap and never otherwise (first conjunct, plus the structural conjuncts
locating those caps: 800 for JS chunks, 1000/500 for HTML section/form
chunks).  The markdown extractor instead truncates to at most 20 *lines*
and never appends a marker (second conjunct; the counterexample shows a
truncated section without a marker); the simple variant's extractors emit
plain fixed line windows with no character cap or marker at all; and the
JSON extractor caps its value serialization by the bare slice
`json.dumps(value, indent=2)[:300]`, likewise appending no marker (last
conjunct). -/
theorem C6_truncation :
    (∀ cap s, capWithEllipsis cap s =
        s.take cap ++ (if cap < s.length then ['.', '.', '.'] else []) ∧
      (s.length ≤ cap → capWithEllipsis cap s = s) ∧
      (capWithEllipsis cap s).length ≤ cap + 3) ∧
    (∀ content path cat c, c ∈ extractMdSections content path cat →
        (splitNl c.code).length ≤ 20) ∧
    (∀ content path cat c, c ∈ extractJsFunctionsTpp content path cat →
        ∃ raw, c.code = capWithEllipsis 800 raw) ∧
    (∀ content path cat c, c ∈ extractHtmlComponentsTpp content path cat →
        (∃ raw, c.code = capWithEllipsis 1000 raw) ∨
          ∃ raw, c.code = capWithEllipsis 500 raw) ∧
    (∀ content path c, c ∈ extractHtmlSectionsSimple content path →
        ∃ a b, c.content = joinNl (pySlice a b (splitNl content))) ∧
    (∀ parsed path cat c, c ∈ extractJsonStructure parsed path cat →
        ∃ k v, c.code = ('"' :: k ++ ['"', ':', ' ']) ++ (dumpJ 0 v).take 300) := by
  refine ⟨?_, ?_, ?_, ?_, ?_, ?_⟩
  · intro cap s
    by_cases h : cap < s.length
    · refine ⟨by rw [capWithEllipsis, if_pos h, if_pos h],
        fun hle => absurd h (by omega), ?_⟩
      rw [capWithEllipsis, if_pos h, List.length_append, List.length_take]
      simp only [List.length_cons, List.length_nil]
      omega
    · have hle : s.length ≤ cap := by omega
      refine ⟨?_, fun _ => by rw [capWithEllipsis, if_neg h], ?_⟩
      · rw [capWithEllipsis, if_neg h, if_neg h, List.take_of_length_le hle,
          List.append_nil]
      · rw [capWithEllipsis, if_neg h]
        omega
  · intro content path cat c hc
    exact mdWalk_lines_le path cat (splitNl content)
      (fun l hl => mem_splitNl_no_nl content l hl) 0 c hc
  · intro content path cat c hc
    simp only [extractJsFunctionsTpp] at hc
    rcases List.mem_append.mp hc with hc | hc
    · rcases List.mem_append.mp hc with hc | hc
      · rcases List.mem_append.mp hc with hc | hc
        · rcases List.mem_map.mp hc with ⟨m, _, rfl⟩
          exact ⟨_, rfl⟩
        · rcases List.mem_map.mp hc with ⟨m, _, rfl⟩
          exact ⟨_, rfl⟩
      · rcases List.mem_map.mp hc with ⟨m, _, rfl⟩
        exact ⟨_, rfl⟩
    · rcases List.mem_map.mp hc with ⟨m, _, rfl⟩
      exact ⟨_, rfl⟩
  · intro content path cat c hc
    simp only [extractHtmlComponentsTpp] at hc
    rcases List.mem_append.mp hc with hc | hc
    · rcases List.mem_filterMap.mp hc with ⟨m, _, hm⟩
      unfold tppSectionChunk at hm
      cases hf : pyFind ('<' :: '/' :: m.2.1.1 ++ ['>']) content (m.1 + m.2.2) with
      | none => rw [hf] at hm; exact absurd hm (by simp)
      | some ep =>
        rw [hf] at hm
        simp only [Option.some_inj] at hm
        subst hm
        exact Or.inl ⟨_, rfl⟩
    · rcases List.mem_filterMap.mp hc with ⟨m, _, hm⟩
      unfold tppFormChunk at hm
      cases hf : pyFind "</form>".toList content (m.1 + m.2.2) with
      | none => rw [hf] at hm; exact absurd hm (by simp)
      | some ep =>
        rw [hf] at hm
        simp only [Option.some_inj] at hm
        subst hm
        exact Or.inr ⟨_, rfl⟩
  · intro content path c hc
    simp only [extractHtmlSectionsSimple] at hc
    rcases List.mem_append.mp hc with hc | hc
    · rcases List.mem_map.mp hc with ⟨m, _, rfl⟩
      exact ⟨_, _, rfl⟩
    · rcases List.mem_map.mp hc with ⟨m, _, rfl⟩
      exact ⟨_, _, rfl⟩
  · intro parsed path cat c hc
    cases parsed with
    | none => exact absurd hc (by simp [extractJsonStructure])
    | some j =>
      cases j with
      | obj kvs =>
        rcases List.mem_map.mp hc with ⟨kv, _, rfl⟩
        exact ⟨kv.1, kv.2, rfl⟩
      | arr xs => exact absurd hc (by simp [extractJsonStructure])
      | str t => exact absurd hc (by simp [extractJsonStructure])
      | num n => exact absurd hc (by simp [extractJsonStructure])
      | bool b => exact absurd hc (by simp [extractJsonStructure])
      | null => exact absurd hc (by simp [extractJsonStructure])

def mdCexContent : List Char := joinNl ("# T".toList :: List.replicate 20 ['a'])

def mdCexChunk : TPPCodeResult :=
  { name := "doc-".toList ++ ['T']
    file_path := []
    line_number := 1
    code := joinNl ("# T".toList :: List.replicate 19 ['a'])
    score := 0
    file_type := "md".toList
    category := [] }

/-- Counterexample to C6 as stated: a markdown file whose single section
has 21 lines.  The emitted chunk's content is the 20-line truncation of the
section — truncation occurred (the content differs from the full section) —
yet no ellipsis marker is appended. -/
theorem C6_md_no_marker_cex :
    (extractMdSections mdCexContent [] []).map (fun c : TPPCodeResult => c.code) =
      [joinNl ("# T".toList :: List.replicate 19 ['a'])] ∧
    joinNl ("# T".toList :: List.replicate 19 ['a']) ≠ mdCexContent ∧
    ¬ ['.', '.', '.'] <:+ joinNl ("# T".toList :: List.replicate 19 ['a']) :=
  ⟨rfl, by decide, by decide⟩

/-- Witness for `C6_truncation`: a string under the cap is unchanged, and
the chunk extracted from the 21-line markdown fixture has at most 20 lines
of content. -/
theorem C6_truncation_witness :
    capWithEllipsis 7 ['a', 'b'] = ['a', 'b'] ∧
      (splitNl mdCexChunk.code).length ≤ 20 :=
  ⟨(C6_truncation.1 7 ['a', 'b']).2.1 (by decide),
    C6_truncation.2.1 mdCexContent [] [] mdCexChunk (by decide)⟩

end TppSearch
